import Mathlib

/-!
Verification development for the Market-Microstructure-Model repository.

The Python sources are shallowly embedded: prices are modelled as rationals,
sizes and order ids as integers, timestamps (produced by `datetime.now()`)
as natural numbers passed explicitly, and the `uuid`-generated identifiers
as explicit oracle parameters.  The `heapq` routines used by the limit order
book (`heappush`, `heappop`, `heapify`, `_siftup`, `_siftdown`) are embedded
verbatim as pure functions on lists and verified below.
-/

namespace MMM

/-- Embedding of `OrderSide` from `src/engine/order.py`. -/
inductive OrderSide
  | buy
  | sell
deriving DecidableEq, Repr

/-- Embedding of `OrderType` from `src/engine/order.py`. -/
inductive OrderType
  | limit
  | market
  | cancel
deriving DecidableEq, Repr

/-- Embedding of the `Order` record from `src/engine/order.py`.  The `price`
field stores the price exactly as the Python object does after
`Order.__init__`, i.e. negated for BUY orders with a nonzero price; `none`
models Python `None`. -/
structure Order where
  side : OrderSide
  price : Option ℚ
  size : ℤ
  type : OrderType
  id : ℤ
  parent_id : ℤ
  timestamp : ℕ
deriving DecidableEq, Repr

instance : Inhabited Order :=
  ⟨{ side := OrderSide.buy, price := none, size := 0, type := OrderType.limit,
     id := 0, parent_id := 0, timestamp := 0 }⟩

/-- Embedding of `Order.__init__`: a nonzero BUY price is stored negated
(`if self.price and self.side == OrderSide.BUY: self.price *= -1`), and a
falsy (`None` or `0`) `id`/`parent_id` argument is replaced by a fresh
`uuid.uuid4().int`, modelled by the oracle arguments `fresh_id` and
`fresh_parent`.  `now` models `datetime.now()`. -/
def Order.make (side : OrderSide) (price : Option ℚ) (size : ℤ) (type : OrderType)
    (id parent_id : Option ℤ) (fresh_id fresh_parent : ℤ) (now : ℕ) : Order :=
  { side := side
    price :=
      match price with
      | none => none
      | some p => if p ≠ 0 ∧ side = OrderSide.buy then some (-p) else some p
    size := size
    type := type
    id :=
      match id with
      | none => fresh_id
      | some i => if i = 0 then fresh_id else i
    parent_id :=
      match parent_id with
      | none => fresh_parent
      | some i => if i = 0 then fresh_parent else i
    timestamp := now }

/-- Embedding of `Order.get_price`: returns `0` for the sentinel id `-1` and
for a falsy stored price, and un-negates the stored price of BUY orders. -/
def Order.get_price (o : Order) : ℚ :=
  if o.id = -1 then 0
  else
    match o.price with
    | none => 0
    | some p =>
      if p = 0 then 0
      else if o.side = OrderSide.buy then -p else p

/-- The stored price read through Python truthiness: `None` behaves as `0`
in every book operation (`Order.__lt__` is never reached with a `None`
price against a `float` in a run that does not raise). -/
def Order.priceVal (o : Order) : ℚ :=
  o.price.getD 0

/-- Embedding of `Order.__lt__`: compare stored prices first, timestamps
second.  A `None` price is compared through the value `0`; the only inputs
on which this differs from CPython are ones where CPython raises a
`TypeError` (comparing `None` with a `float`), which never happens for
orders resting in the book. -/
def Order.ltb (a b : Order) : Bool :=
  if a.priceVal ≠ b.priceVal then decide (a.priceVal < b.priceVal)
  else decide (a.timestamp < b.timestamp)

/-- Model of Python 3 `round` (banker's rounding, round-half-to-even) on
exact rationals. -/
def pyRound (q : ℚ) : ℤ :=
  if 2 * (q - ⌊q⌋) = 1 then (if ⌊q⌋ % 2 = 0 then ⌊q⌋ else ⌊q⌋ + 1)
  else round q

/-- Embedding of `round_to_tick` from `src/orderflow/generator.py`:
`round(price / tick_size) * tick_size`. -/
def round_to_tick (price tick_size : ℚ) : ℚ :=
  (pyRound (price / tick_size) : ℚ) * tick_size

namespace Heapq

variable {α : Type} (lt : α → α → Bool)

/-- Index of the parent node in the implicit binary-tree layout used by
`heapq`: the children of `i` are `2*i+1` and `2*i+2`. -/
def parentIdx (j : ℕ) : ℕ :=
  (j - 1) / 2

/-- Embedding of the loop of `heapq._siftdown(heap, startpos, pos)`, with
`newitem = heap[pos]` already read off.  Works on the list functionally:
every assignment `heap[pos] = parent` becomes a `List.set`. -/
def siftdownAux (l : List α) (newitem : α) (startpos pos : ℕ) : List α :=
  if _h : startpos < pos then
    let parent := l.getD (parentIdx pos) newitem
    if lt newitem parent then
      siftdownAux (l.set pos parent) newitem startpos (parentIdx pos)
    else
      l.set pos newitem
  else
    l.set pos newitem
termination_by pos
decreasing_by simp only [parentIdx]; omega

/-- Embedding of `heapq._siftdown`. -/
def siftdown (l : List α) (startpos pos : ℕ) : List α :=
  match l[pos]? with
  | some newitem => siftdownAux lt l newitem startpos pos
  | none => l

/-- Embedding of `heapq.heappush`: append, then sift the new leaf down
towards the root. -/
def heappush (heap : List α) (item : α) : List α :=
  siftdownAux lt (heap ++ [item]) item 0 heap.length

/-- Embedding of the loop of `heapq._siftup(heap, pos)` with
`newitem = heap[pos]` read off: bubble the smaller child up until a leaf
position is reached, place `newitem` there, then call `_siftdown`. -/
def siftupAux (l : List α) (newitem : α) (startpos pos : ℕ) : List α :=
  if _hc : 2 * pos + 1 < l.length then
    let childpos :=
      if 2 * pos + 2 < l.length then
        if lt (l.getD (2 * pos + 1) newitem) (l.getD (2 * pos + 2) newitem) then 2 * pos + 1
        else 2 * pos + 2
      else 2 * pos + 1
    siftupAux (l.set pos (l.getD childpos newitem)) newitem startpos childpos
  else
    siftdownAux lt (l.set pos newitem) newitem startpos pos
termination_by l.length - pos
decreasing_by
  simp only [List.length_set, childpos]
  split
  · split <;> omega
  · omega

/-- Embedding of `heapq._siftup`. -/
def siftup (l : List α) (pos : ℕ) : List α :=
  match l[pos]? with
  | some newitem => siftupAux lt l newitem pos pos
  | none => l

/-- Helper for `heapify`: run `_siftup` at indices `i-1, i-2, ..., 0`. -/
def heapifyAux : List α → ℕ → List α
  | l, 0 => l
  | l, i + 1 => heapifyAux (siftup lt l i) i

/-- Embedding of `heapq.heapify`:
`for i in reversed(range(n//2)): _siftup(x, i)`. -/
def heapify (l : List α) : List α :=
  heapifyAux lt l (l.length / 2)

/-- Embedding of `heapq.heappop`: pop the last element, and if the heap is
still nonempty move it to the root and sift up.  Returns `none` on the
empty heap (where CPython raises `IndexError`). -/
def heappop (l : List α) : Option (α × List α) :=
  match l.getLast? with
  | none => none
  | some lastelt =>
    let rest := l.dropLast
    if rest.isEmpty then some (lastelt, [])
    else some (rest.headD lastelt, siftup lt (rest.set 0 lastelt) 0)

/-- The heap left over after a `heappop` (empty heap maps to empty). -/
def heappopRest (l : List α) : List α :=
  match heappop lt l with
  | none => []
  | some p => p.2

theorem length_siftdownAux (l : List α) (newitem : α) (startpos pos : ℕ) :
    (siftdownAux lt l newitem startpos pos).length = l.length := by
  induction l, newitem, startpos, pos using siftdownAux.induct lt with
  | case1 l newitem startpos pos h parent hlt ih =>
    rw [siftdownAux, dif_pos h, if_pos hlt]
    simpa [parent] using ih
  | case2 l newitem startpos pos h parent hlt =>
    rw [siftdownAux, dif_pos h, if_neg hlt]
    simp
  | case3 l newitem startpos pos h =>
    rw [siftdownAux, dif_neg h]
    simp

theorem length_siftupAux (l : List α) (newitem : α) (startpos pos : ℕ) :
    (siftupAux lt l newitem startpos pos).length = l.length := by
  induction l, newitem, startpos, pos using siftupAux.induct lt with
  | case1 l newitem startpos pos hc childpos ih =>
    rw [siftupAux, dif_pos hc]
    simpa [childpos] using ih
  | case2 l newitem startpos pos hc =>
    rw [siftupAux, dif_neg hc]
    simp [length_siftdownAux]

theorem length_siftup (l : List α) (pos : ℕ) :
    (siftup lt l pos).length = l.length := by
  unfold siftup
  cases h : l[pos]? with
  | none => rfl
  | some newitem => exact length_siftupAux lt l newitem pos pos

theorem heappop_eq_none_iff (l : List α) : heappop lt l = none ↔ l = [] := by
  unfold heappop
  cases h : l.getLast? with
  | none => simpa using List.getLast?_eq_none_iff.mp h
  | some lastelt =>
    constructor
    · intro hcontra
      by_cases he : l.dropLast.isEmpty <;> simp [he] at hcontra
    · intro hl
      subst hl
      simp at h

theorem heappop_length (l : List α) {p : α × List α} (h : heappop lt l = some p) :
    p.2.length + 1 = l.length := by
  unfold heappop at h
  cases hg : l.getLast? with
  | none => rw [hg] at h; cases h
  | some lastelt =>
    rw [hg] at h
    dsimp only at h
    have hne : l ≠ [] := fun hl => by simp [hl] at hg
    have hlen : 0 < l.length := List.length_pos.mpr hne
    have hdrop : l.dropLast.length = l.length - 1 := List.length_dropLast l
    by_cases he : l.dropLast.isEmpty
    · rw [if_pos he] at h
      cases h
      rw [List.isEmpty_iff.mp he] at hdrop
      simp at hdrop ⊢
      omega
    · rw [if_neg he] at h
      cases h
      simp only [length_siftup, List.length_set]
      omega

theorem length_heappopRest (l : List α) (h : l ≠ []) :
    (heappopRest lt l).length + 1 = l.length := by
  unfold heappopRest
  cases hp : heappop lt l with
  | none => exact absurd ((heappop_eq_none_iff lt l).mp hp) h
  | some p => exact heappop_length lt l hp

theorem length_heappopRest_cons (x : α) (xs : List α) :
    (heappopRest lt (x :: xs)).length = xs.length := by
  have := length_heappopRest lt (x :: xs) (by simp)
  simpa using this

/-- Pop every element of the heap in heap order. -/
def popAll (l : List α) : List α :=
  match h : heappop lt l with
  | none => []
  | some p => p.1 :: popAll p.2
termination_by l.length
decreasing_by
  have := heappop_length lt l h
  omega

end Heapq

/-- Embedding of the event variants from `src/engine/events.py`
(`NewOrderEvent`, `CancelOrderEvent`, `TradeEvent`), with the shared
`EventType` tag folded into the constructor. -/
inductive Event
  | newOrder (order_id : ℤ) (side : OrderSide) (size : ℤ) (price : Option ℚ)
      (order_type : OrderType) (parent_order_id : ℤ) (timestamp : ℕ)
  | cancelOrder (order_id : ℤ) (timestamp : ℕ)
  | trade (trade_id : ℤ) (price : ℚ) (size : ℤ) (buy_order_id : ℤ)
      (sell_order_id : ℤ) (parent_order_id : ℤ) (timestamp : ℕ)
deriving DecidableEq, Repr

/-- Embedding of `create_trade_event`.  The `trade_id` is drawn from
`uuid.uuid4()` in the source; it is modelled as `0` here because no claim
inspects it. -/
def create_trade_event (price : ℚ) (size : ℤ) (buy_order sell_order : Order)
    (timestamp : ℕ) (parent_order_id : ℤ) : Event :=
  Event.trade 0 price size buy_order.id sell_order.id parent_order_id timestamp

/-- Embedding of `create_new_order_event`: note that the event carries
`order.price`, the internally stored (sign-flipped for BUY) price. -/
def create_new_order_event (o : Order) (timestamp : ℕ) : Event :=
  Event.newOrder o.id o.side o.size o.price o.type o.parent_id timestamp

/-- Embedding of `create_cancel_order_event`. -/
def create_cancel_order_event (o : Order) (timestamp : ℕ) : Event :=
  Event.cancelOrder o.id timestamp

/-- Embedding of the `LimitOrderBook` state from `src/engine/book.py`: two
`heapq` heaps of resting orders plus the configured tick size.  The event
queue is not a field here: every operation below returns the list of events
it publishes, in publication order. -/
structure LimitOrderBook where
  bid_orders : List Order
  ask_orders : List Order
  tick_size : ℚ
deriving DecidableEq, Repr

namespace LimitOrderBook

/-- Embedding of `LimitOrderBook._add_order`: reject a LIMIT order with a
falsy `get_price()` and any non-LIMIT order, otherwise push onto the side's
heap and publish a `NewOrderEvent`. -/
def add_order (b : LimitOrderBook) (o : Order) : LimitOrderBook × Option Event :=
  if o.get_price = 0 ∧ o.type = OrderType.limit then (b, none)
  else if o.type ≠ OrderType.limit then (b, none)
  else
    let b1 :=
      match o.side with
      | OrderSide.buy => { b with bid_orders := Heapq.heappush Order.ltb b.bid_orders o }
      | OrderSide.sell => { b with ask_orders := Heapq.heappush Order.ltb b.ask_orders o }
    (b1, some (create_new_order_event o o.timestamp))

/-- Embedding of `LimitOrderBook.best_bid`: heap root, or the dummy order
`Order(price=0, size=0, side=BUY, type=LIMIT, id=-1)` when the side is
empty. -/
def best_bid (b : LimitOrderBook) : Order :=
  match b.bid_orders with
  | [] => Order.make OrderSide.buy (some 0) 0 OrderType.limit (some (-1)) none 0 0 0
  | o :: _ => o

/-- Embedding of `LimitOrderBook.best_ask`. -/
def best_ask (b : LimitOrderBook) : Order :=
  match b.ask_orders with
  | [] => Order.make OrderSide.sell (some 0) 0 OrderType.limit (some (-1)) none 0 0 0
  | o :: _ => o

/-- Embedding of `LimitOrderBook.mid_price`. -/
def mid_price (b : LimitOrderBook) : ℚ :=
  let bb := b.best_bid.get_price
  let ba := b.best_ask.get_price
  if bb = 0 ∧ ba = 0 then 0
  else if bb = 0 then ba
  else if ba = 0 then bb
  else (bb + ba) / 2

/-- Embedding of `LimitOrderBook.get_spread`; `none` models the
`float("inf")` returned when exactly one side is empty. -/
def get_spread (b : LimitOrderBook) : Option ℚ :=
  let bb := b.best_bid.get_price
  let ba := b.best_ask.get_price
  if bb = 0 ∧ ba = 0 then some 0
  else if bb = 0 ∨ ba = 0 then none
  else some (ba - bb)

/-- Embedding of `LimitOrderBook.get_bid_size(levels=None)`: sum of the
sizes of the first `levels` entries of the bid heap's backing list
(`self.bid_orders[:levels]`), the whole list by default, and `0` when
`levels` is out of range. -/
def get_bid_size (b : LimitOrderBook) (levels : Option ℤ) : ℤ :=
  let n : ℤ := b.bid_orders.length
  let lv := levels.getD n
  if lv < 1 ∨ lv > n then 0
  else ((b.bid_orders.take lv.toNat).map Order.size).sum

/-- Embedding of `LimitOrderBook.get_ask_size(levels=None)`. -/
def get_ask_size (b : LimitOrderBook) (levels : Option ℤ) : ℤ :=
  let n : ℤ := b.ask_orders.length
  let lv := levels.getD n
  if lv < 1 ∨ lv > n then 0
  else ((b.ask_orders.take lv.toNat).map Order.size).sum

/-- Embedding of `LimitOrderBook.get_bid_depth`. -/
def get_bid_depth (b : LimitOrderBook) : ℕ :=
  b.bid_orders.length

/-- Embedding of `LimitOrderBook.get_ask_depth`. -/
def get_ask_depth (b : LimitOrderBook) : ℕ :=
  b.ask_orders.length

/-- Embedding of `LimitOrderBook.get_all_order_ids`:
`[order.id for order in self.ask_orders + self.bid_orders]`. -/
def get_all_order_ids (b : LimitOrderBook) : List ℤ :=
  (b.ask_orders ++ b.bid_orders).map Order.id

end LimitOrderBook

/-- Embedding of the BUY branch of the matching loop in
`LimitOrderBook._match_market_order`: consume the ask heap while it is
nonempty and the taker has size left; the maker's price is used and the
maker is popped when fully consumed.  Note the trade event receives
`(buy_order := order, sell_order := best)`. -/
def match_buy_market_loop (order : Order) (asks : List Order) (evs : List Event) :
    Order × List Order × List Event :=
  match asks with
  | [] => (order, [], evs)
  | best :: restAsks =>
    if order.size ≤ 0 then (order, best :: restAsks, evs)
    else
      let trade := min best.size order.size
      let ev := create_trade_event best.get_price trade order best order.timestamp order.parent_id
      let best1 := { best with size := best.size - trade }
      let order1 := { order with size := order.size - trade }
      if best.size - trade = 0 then
        match_buy_market_loop order1 (Heapq.heappopRest Order.ltb (best1 :: restAsks)) (evs ++ [ev])
      else
        (order1, best1 :: restAsks, evs ++ [ev])
termination_by asks.length
decreasing_by
  simp only [Heapq.length_heappopRest_cons, List.length_cons]
  omega

/-- Embedding of the SELL branch of the matching loop in
`LimitOrderBook._match_market_order`: the trade event receives
`(buy_order := best, sell_order := order)`. -/
def match_sell_market_loop (order : Order) (bids : List Order) (evs : List Event) :
    Order × List Order × List Event :=
  match bids with
  | [] => (order, [], evs)
  | best :: restBids =>
    if order.size ≤ 0 then (order, best :: restBids, evs)
    else
      let trade := min best.size order.size
      let ev := create_trade_event best.get_price trade best order order.timestamp order.parent_id
      let best1 := { best with size := best.size - trade }
      let order1 := { order with size := order.size - trade }
      if best.size - trade = 0 then
        match_sell_market_loop order1 (Heapq.heappopRest Order.ltb (best1 :: restBids)) (evs ++ [ev])
      else
        (order1, best1 :: restBids, evs ++ [ev])
termination_by bids.length
decreasing_by
  simp only [Heapq.length_heappopRest_cons, List.length_cons]
  omega

/-- Embedding of the BUY branch of the matching loop in
`LimitOrderBook._match_limit_order`: stop when the best ask's price exceeds
the taker's limit.  The source passes `(best, order)` positionally into
`create_trade_event(price, size, buy_order, sell_order, ...)`, so here the
resting ask lands in the `buy_order` slot and the incoming BUY in the
`sell_order` slot. -/
def match_buy_limit_loop (order : Order) (asks : List Order) (evs : List Event) :
    Order × List Order × List Event :=
  match asks with
  | [] => (order, [], evs)
  | best :: restAsks =>
    if order.size ≤ 0 then (order, best :: restAsks, evs)
    else if best.get_price > order.get_price then (order, best :: restAsks, evs)
    else
      let trade := min best.size order.size
      let ev := create_trade_event best.get_price trade best order order.timestamp order.parent_id
      let best1 := { best with size := best.size - trade }
      let order1 := { order with size := order.size - trade }
      if best.size - trade = 0 then
        match_buy_limit_loop order1 (Heapq.heappopRest Order.ltb (best1 :: restAsks)) (evs ++ [ev])
      else
        (order1, best1 :: restAsks, evs ++ [ev])
termination_by asks.length
decreasing_by
  simp only [Heapq.length_heappopRest_cons, List.length_cons]
  omega

/-- Embedding of the SELL branch of the matching loop in
`LimitOrderBook._match_limit_order`: stop when the best bid's price is
below the taker's limit; the trade event receives
`(buy_order := best, sell_order := order)`. -/
def match_sell_limit_loop (order : Order) (bids : List Order) (evs : List Event) :
    Order × List Order × List Event :=
  match bids with
  | [] => (order, [], evs)
  | best :: restBids =>
    if order.size ≤ 0 then (order, best :: restBids, evs)
    else if best.get_price < order.get_price then (order, best :: restBids, evs)
    else
      let trade := min best.size order.size
      let ev := create_trade_event best.get_price trade best order order.timestamp order.parent_id
      let best1 := { best with size := best.size - trade }
      let order1 := { order with size := order.size - trade }
      if best.size - trade = 0 then
        match_sell_limit_loop order1 (Heapq.heappopRest Order.ltb (best1 :: restBids)) (evs ++ [ev])
      else
        (order1, best1 :: restBids, evs ++ [ev])
termination_by bids.length
decreasing_by
  simp only [Heapq.length_heappopRest_cons, List.length_cons]
  omega

namespace LimitOrderBook

/-- Embedding of `LimitOrderBook._match_market_order`; returns the new book
and the events published. -/
def match_market_order (b : LimitOrderBook) (o : Order) : LimitOrderBook × List Event :=
  if o.type = OrderType.cancel then (b, [])
  else
    match o.side with
    | OrderSide.buy =>
      let r := match_buy_market_loop o b.ask_orders []
      ({ b with ask_orders := r.2.1 }, r.2.2)
    | OrderSide.sell =>
      let r := match_sell_market_loop o b.bid_orders []
      ({ b with bid_orders := r.2.1 }, r.2.2)

/-- Embedding of `LimitOrderBook._match_limit_order`: reject falsy-priced
and CANCEL orders, round the stored price to the tick
(`order.price = round(order.price / self.tick_size) * self.tick_size`),
match, and add any residual via `_add_order`.  Returns the new book and all
events published (trades, then the `NewOrderEvent` if the residual
rested). -/
def match_limit_order (b : LimitOrderBook) (o : Order) : LimitOrderBook × List Event :=
  if o.get_price = 0 then (b, [])
  else if o.type = OrderType.cancel then (b, [])
  else
    let o1 := { o with price := o.price.map (fun p => round_to_tick p b.tick_size) }
    match o.side with
    | OrderSide.buy =>
      let r := match_buy_limit_loop o1 b.ask_orders []
      let b1 := { b with ask_orders := r.2.1 }
      if r.1.size > 0 then
        let ar := b1.add_order r.1
        (ar.1, r.2.2 ++ ar.2.toList)
      else (b1, r.2.2)
    | OrderSide.sell =>
      let r := match_sell_limit_loop o1 b.bid_orders []
      let b1 := { b with bid_orders := r.2.1 }
      if r.1.size > 0 then
        let ar := b1.add_order r.1
        (ar.1, r.2.2 ++ ar.2.toList)
      else (b1, r.2.2)

/-- Embedding of `LimitOrderBook._cancel_order`: linear scan of the ask
list first, then the bid list; remove the first order whose id matches,
re-`heapify` that side, and publish a cancel event stamped with
`datetime.now()` (modelled by `now`). -/
def cancel_order (b : LimitOrderBook) (order_id : ℤ) (now : ℕ) :
    LimitOrderBook × List Event :=
  match b.ask_orders.findIdx? (fun o => o.id == order_id) with
  | some i =>
    let o := b.ask_orders.getD i default
    ({ b with ask_orders := Heapq.heapify Order.ltb (b.ask_orders.eraseIdx i) },
     [create_cancel_order_event o now])
  | none =>
    match b.bid_orders.findIdx? (fun o => o.id == order_id) with
    | some i =>
      let o := b.bid_orders.getD i default
      ({ b with bid_orders := Heapq.heapify Order.ltb (b.bid_orders.eraseIdx i) },
       [create_cancel_order_event o now])
    | none => (b, [])

/-- Embedding of `LimitOrderBook.process_order`: dispatch on the order
type.  The event list is everything published to the event queue by the
call. -/
def process_order (b : LimitOrderBook) (o : Order) (now : ℕ) :
    LimitOrderBook × List Event :=
  match o.type with
  | OrderType.cancel => b.cancel_order o.id now
  | OrderType.market => b.match_market_order o
  | OrderType.limit => b.match_limit_order o

/-- Sequential processing of a list of orders (each with its `now`
timestamp for possible cancel events), accumulating all published
events. -/
def process_seq (b : LimitOrderBook) : List (Order × ℕ) → LimitOrderBook × List Event
  | [] => (b, [])
  | p :: rest =>
    let r := b.process_order p.1 p.2
    let r2 := r.1.process_seq rest
    (r2.1, r.2 ++ r2.2)

end LimitOrderBook

/-- Embedding of `BaseStrategy.validate_order` from
`src/strategies/base_strategy.py`.  A negative size raises `ValueError` in
the source, modelled by `none`.  The `is not None` guards in the source are
always true because `get_price` is total, so BUY orders are checked for
sufficient cash and everything else passes. -/
def validate_order (cash : ℚ) (o : Order) (b : LimitOrderBook) : Option Bool :=
  if o.size < 0 then none
  else
    let best_ask_price := b.best_ask.get_price
    some
      (if o.side = OrderSide.buy then
        match o.type with
        | OrderType.limit => decide (¬ cash < (o.size : ℚ) * o.get_price)
        | OrderType.market => decide (¬ cash < (o.size : ℚ) * best_ask_price)
        | OrderType.cancel => true
      else true)

/-- Embedding of `BaseStrategy._create_limit_order`.  The source builds the
order id from the agent id and a `uuid4` suffix; the resulting id and the
`parent_id` are oracle arguments here. -/
def create_limit_order (volume : ℤ) (side : OrderSide) (price : ℚ)
    (order_id parent_id : ℤ) (now : ℕ) : Order :=
  Order.make side (some price) volume OrderType.limit (some order_id) (some parent_id)
    order_id parent_id now

/-- Embedding of `BaseStrategy._create_cancel_order`:
`Order(type=CANCEL, side=BUY, size=0, price=None, id=order_id)`.  The
`parent_id` defaults to a fresh uuid in the source, modelled as `0`. -/
def create_cancel_order (order_id : ℤ) (now : ℕ) : Order :=
  Order.make OrderSide.buy none 0 OrderType.cancel (some order_id) none 0 0 now

/-- State of the `SymmetricMaker` agent from
`src/strategies/market_maker.py` (the fields read or written by `step`). -/
structure SymmetricMaker where
  quote_size : ℤ
  max_inventory : ℤ
  quote_update_interval : ℚ
  tick_size : ℚ
  next_quote_time : ℚ
  quotes_bid : List Order
  quotes_ask : List Order
  inventory : ℤ
  cash : ℚ
deriving DecidableEq, Repr

/-- Embedding of `SymmetricMaker.step`.  Returns
`some (cancels, orders, new_state)`; `none` models the `ValueError` that
`validate_order` raises on a negative quote size.  The quote orders' ids
and parent ids (built from `uuid4` in the source) are oracle arguments. -/
def SymmetricMaker.step (st : SymmetricMaker) (time : ℚ) (book : LimitOrderBook)
    (bid_id ask_id bid_parent ask_parent : ℤ) (now : ℕ) :
    Option (List Order × List Order × SymmetricMaker) :=
  if time < st.next_quote_time then some ([], [], st)
  else
    let cancels := (st.quotes_bid ++ st.quotes_ask).map (fun q => create_cancel_order q.id now)
    let st1 := { st with next_quote_time := time + st.quote_update_interval,
                         quotes_bid := [], quotes_ask := [] }
    let mid := book.mid_price
    match book.get_spread with
    | none => some (cancels, [], st1)
    | some spread =>
      if mid = 0 then some (cancels, [], st1)
      else
        let bid_price := round_to_tick (mid - spread / 2) st.tick_size
        let ask_price := round_to_tick (mid + spread / 2) st.tick_size
        let bid_order := create_limit_order st.quote_size OrderSide.buy bid_price bid_id bid_parent now
        let ask_order := create_limit_order st.quote_size OrderSide.sell ask_price ask_id ask_parent now
        let bid_check : Option Bool :=
          if st.inventory + st.quote_size < st.max_inventory then
            validate_order st.cash bid_order book
          else some false
        let ask_check : Option Bool :=
          if st.inventory - st.quote_size > -st.max_inventory then
            validate_order st.cash ask_order book
          else some false
        match bid_check, ask_check with
        | some pb, some pa =>
          some (cancels,
            (if pb then [bid_order] else []) ++ (if pa then [ask_order] else []),
            { st1 with quotes_bid := if pb then [bid_order] else [],
                       quotes_ask := if pa then [ask_order] else [] })
        | _, _ => none

/-- Parameters of `TWAPExecution` from `src/strategies/execution.py` (the
constructor rejects non-positive `intervals`/`duration`; those bounds
appear as hypotheses of the theorems below). -/
structure TWAPExecution where
  intervals : ℕ
  duration : ℚ
deriving DecidableEq, Repr

/-- Embedding of `TWAPExecution.schedule_order`.  The RNG draws
`self.rng.uniform(0, duration/intervals)` for child `i` are modelled by the
oracle `u`; a falsy `parent_id` is replaced by a fresh uuid (`fresh_parent`).
`none` models the `ValueError` raised on non-positive volume or schedule
time.  Child volume is Python floor division `total_volume // intervals`. -/
def TWAPExecution.schedule_order (e : TWAPExecution) (u : ℕ → ℚ) (fresh_parent : ℤ)
    (schedule_time : ℚ) (total_volume : ℤ) (side : OrderSide) (parent_id : Option ℤ) :
    Option (List (ℚ × ℤ × OrderSide × ℤ)) :=
  let pid :=
    match parent_id with
    | none => fresh_parent
    | some q => if q = 0 then fresh_parent else q
  if total_volume ≤ 0 then none
  else if schedule_time ≤ 0 then none
  else
    let interval_volume := Int.fdiv total_volume (e.intervals : ℤ)
    some ((List.range e.intervals).map (fun (i : ℕ) =>
      (schedule_time + (i : ℚ) * (e.duration / (e.intervals : ℚ)) + u i,
       interval_volume, side, pid)))

/-- The agent state touched by `BaseStrategy.reset` from
`src/strategies/base_strategy.py`. -/
structure BaseStrategyState where
  initial_cash : ℚ
  cash : ℚ
  inventory : ℤ
  parent_order_dict : List (ℤ × ℚ)
  schedule : List (ℚ × ℤ × OrderSide × ℤ)
  slippage : List (ℚ × ℤ)
  trades : List (ℕ × Event)
deriving DecidableEq, Repr

/-- Embedding of `BaseStrategy.reset` (the same
`self.cash = initial_cash or self.initial_cash` pattern appears in
`TWAPSingleTaker.reset` and `SingleTaker.reset` in
`src/strategies/taker.py`): a falsy argument (`None` or `0`) falls back to
the constructor-time `initial_cash`. -/
def BaseStrategyState.reset (st : BaseStrategyState) (initial_cash : Option ℚ)
    (initial_inventory : ℤ) : BaseStrategyState :=
  { st with
    cash :=
      match initial_cash with
      | none => st.initial_cash
      | some c => if c = 0 then st.initial_cash else c
    inventory := initial_inventory
    parent_order_dict := []
    schedule := []
    slippage := []
    trades := [] }

/-! ## Auxiliary predicates and concrete instances -/

/-- `e` is not a trade event that names `X` as its buy or sell order id. -/
def NoTradeNaming (X : ℤ) (e : Event) : Prop :=
  match e with
  | Event.trade _ _ _ bid sid _ _ => bid ≠ X ∧ sid ≠ X
  | _ => True

/-- The empty book with unit tick. -/
def emptyBook : LimitOrderBook :=
  { bid_orders := [], ask_orders := [], tick_size := 1 }

/-- An incoming BUY limit order (id 7, price 101, size 3, parent 2). -/
def c1order : Order :=
  Order.make OrderSide.buy (some 101) 3 OrderType.limit (some 7) (some 2) 0 0 2

/-- A book with one resting ask (id 5, price 100, size 5). -/
def c1book : LimitOrderBook :=
  { bid_orders := [],
    ask_orders := [Order.make OrderSide.sell (some 100) 5 OrderType.limit (some 5) (some 3) 0 0 1],
    tick_size := 1 }

/-- The bids resting in `c2book`: prices 10, 30, 20 with sizes 1, 2, 4. -/
def c2o1 : Order :=
  Order.make OrderSide.buy (some 10) 1 OrderType.limit (some 11) (some 1) 0 0 1

def c2o2 : Order :=
  Order.make OrderSide.buy (some 30) 2 OrderType.limit (some 12) (some 1) 0 0 2

def c2o3 : Order :=
  Order.make OrderSide.buy (some 20) 4 OrderType.limit (some 13) (some 1) 0 0 3

/-- A book with three resting bids at (actual) prices 10, 30 and 20 with
sizes 1, 2 and 4, submitted in that order. -/
def c2book : LimitOrderBook :=
  (emptyBook.process_seq [(c2o1, 1), (c2o2, 2), (c2o3, 3)]).1

/-- A SELL limit order with a negative limit price. -/
def c3order : Order :=
  Order.make OrderSide.sell (some (-5)) 4 OrderType.limit (some 9) (some 1) 0 0 3

/-- A one-ask book used to instantiate the cancellation theorem. -/
def c5book : LimitOrderBook :=
  { bid_orders := [],
    ask_orders := [Order.make OrderSide.sell (some 100) 5 OrderType.limit (some 5) (some 1) 0 0 1],
    tick_size := 1 }

/-- A book with one bid at 98 and one ask at 102 (mid 100, spread 4). -/
def c6book : LimitOrderBook :=
  { bid_orders := [Order.make OrderSide.buy (some 98) 10 OrderType.limit (some 21) (some 1) 0 0 1],
    ask_orders := [Order.make OrderSide.sell (some 102) 10 OrderType.limit (some 22) (some 1) 0 0 2],
    tick_size := 1 }

/-- A market-maker state at the inventory boundary: with `quote_size = 10`
and `max_inventory = 20`, an inventory of `10` satisfies
`|inventory + quote_size| ≤ max_inventory` but not the code's strict
`inventory + quote_size < max_inventory`. -/
def c6st : SymmetricMaker :=
  { quote_size := 10, max_inventory := 20, quote_update_interval := 1, tick_size := 1,
    next_quote_time := 0, quotes_bid := [], quotes_ask := [], inventory := 10,
    cash := 1000000 }

/-! ## Verification of the `heapq` embedding -/

namespace Heapq

variable {α : Type} (lt : α → α → Bool)

theorem getElem?_of_lt_length {l : List α} {k : ℕ} (d : α) (hk : k < l.length) :
    l[k]? = some (l.getD k d) := by
  rw [List.getD_eq_getElem l d hk]
  exact List.getElem?_eq_getElem hk

theorem lt_length_of_getElem? {l : List α} {k : ℕ} {x : α} (h : l[k]? = some x) :
    k < l.length :=
  (List.getElem?_eq_some.mp h).1

theorem set_perm_cons_eraseIdx (l : List α) (k : ℕ) (x : α) (hk : k < l.length) :
    (l.set k x).Perm (x :: l.eraseIdx k) := by
  induction l generalizing k with
  | nil => simp at hk
  | cons a t ih =>
    cases k with
    | zero => exact List.Perm.refl _
    | succ k =>
      have hk2 : k < t.length := by simpa using hk
      show (a :: t.set k x).Perm (x :: a :: t.eraseIdx k)
      exact ((ih k hk2).cons a).trans (List.Perm.swap x a _)

theorem perm_cons_eraseIdx (l : List α) (k : ℕ) (e : α) (he : l[k]? = some e) :
    l.Perm (e :: l.eraseIdx k) := by
  induction l generalizing k with
  | nil => simp at he
  | cons a t ih =>
    cases k with
    | zero =>
      have ha : a = e := by simpa using he
      subst ha
      exact List.Perm.refl _
    | succ k =>
      have he2 : t[k]? = some e := by simpa using he
      show (a :: t).Perm (e :: a :: t.eraseIdx k)
      exact ((ih k he2).cons a).trans (List.Perm.swap e a _)

theorem set_set_perm (l : List α) (i j : ℕ) (e x : α) (hij : i ≠ j) (hi : i < l.length)
    (hje : l[j]? = some e) : ((l.set i e).set j x).Perm (l.set i x) := by
  induction l generalizing i j with
  | nil => simp at hi
  | cons a t ih =>
    cases i with
    | zero =>
      cases j with
      | zero => exact absurd rfl hij
      | succ k =>
        have hje2 : t[k]? = some e := by simpa using hje
        have hk : k < t.length := lt_length_of_getElem? hje2
        show (e :: t.set k x).Perm (x :: t)
        refine (((set_perm_cons_eraseIdx t k x hk).cons e).trans
          (List.Perm.swap x e _)).trans ?_
        exact ((perm_cons_eraseIdx t k e hje2).symm).cons x
    | succ m =>
      cases j with
      | zero =>
        have ha : a = e := by simpa using hje
        subst ha
        have hm : m < t.length := by simpa using hi
        show (x :: t.set m a).Perm (a :: t.set m x)
        refine (((set_perm_cons_eraseIdx t m a hm).cons x).trans
          (List.Perm.swap a x _)).trans ?_
        exact ((set_perm_cons_eraseIdx t m x hm).symm).cons a
      | succ k =>
        have hje2 : t[k]? = some e := by simpa using hje
        have hm : m < t.length := by simpa using hi
        show (a :: (t.set m e).set k x).Perm (a :: t.set m x)
        exact (ih m k (by omega) hm hje2).cons a

theorem siftdownAux_perm (l : List α) (n : α) (s pos : ℕ) :
    pos < l.length → (siftdownAux lt l n s pos).Perm (l.set pos n) := by
  induction l, n, s, pos using siftdownAux.induct lt with
  | case1 l n s pos h parent hlt ih =>
    intro hpos
    have hpp : parentIdx pos < l.length := by
      have : parentIdx pos < pos := by simp only [parentIdx]; omega
      omega
    rw [siftdownAux, dif_pos h, if_pos hlt]
    have hpe : l[parentIdx pos]? = some parent := by
      simpa [parent] using getElem?_of_lt_length n hpp
    have ih2 := ih (by simpa using hpp)
    refine ih2.trans ?_
    have hne : pos ≠ parentIdx pos := by
      have : parentIdx pos < pos := by simp only [parentIdx]; omega
      omega
    exact set_set_perm l pos (parentIdx pos) parent n hne hpos hpe
  | case2 l n s pos h parent hlt =>
    intro _
    rw [siftdownAux, dif_pos h, if_neg hlt]
  | case3 l n s pos h =>
    intro _
    rw [siftdownAux, dif_neg h]

theorem siftupAux_perm (l : List α) (n : α) (s pos : ℕ) :
    pos < l.length → (siftupAux lt l n s pos).Perm (l.set pos n) := by
  induction l, n, s, pos using siftupAux.induct lt with
  | case1 l n s pos hc childpos ih =>
    intro hpos
    have hcp : pos < childpos ∧ childpos < l.length := by
      simp only [childpos]
      split
      · split <;> omega
      · omega
    rw [siftupAux, dif_pos hc]
    have hce : l[childpos]? = some (l.getD childpos n) :=
      getElem?_of_lt_length n hcp.2
    have ih2 := ih (by simpa using hcp.2)
    refine ih2.trans ?_
    exact set_set_perm l pos childpos (l.getD childpos n) n (by omega) hpos hce
  | case2 l n s pos hc =>
    intro hpos
    rw [siftupAux, dif_neg hc]
    refine (siftdownAux_perm lt _ n s pos (by simpa using hpos)).trans ?_
    rw [List.set_set]

theorem siftup_perm (l : List α) (pos : ℕ) : (siftup lt l pos).Perm l := by
  unfold siftup
  cases h : l[pos]? with
  | none => exact List.Perm.refl l
  | some n =>
    have hpos : pos < l.length := lt_length_of_getElem? h
    refine (siftupAux_perm lt l n pos pos hpos).trans ?_
    refine (set_perm_cons_eraseIdx l pos n hpos).trans ?_
    exact (perm_cons_eraseIdx l pos n h).symm

theorem heapifyAux_perm : ∀ (k : ℕ) (l : List α), (heapifyAux lt l k).Perm l := by
  intro k
  induction k with
  | zero => intro l; exact List.Perm.refl l
  | succ i ih =>
    intro l
    exact (ih (siftup lt l i)).trans (siftup_perm lt l i)

theorem heapify_perm (l : List α) : (heapify lt l).Perm l :=
  heapifyAux_perm lt (l.length / 2) l

theorem set_append_last (l : List α) (x y : α) : (l ++ [x]).set l.length y = l ++ [y] := by
  induction l with
  | nil => rfl
  | cons a t ih => simpa using ih

theorem heappush_perm (l : List α) (x : α) : (heappush lt l x).Perm (l ++ [x]) := by
  unfold heappush
  refine (siftdownAux_perm lt (l ++ [x]) x 0 l.length (by simp)).trans ?_
  rw [set_append_last]

theorem headD_eq_head {l : List α} (d : α) (h : l ≠ []) : l.headD d = l.head h := by
  cases l with
  | nil => exact absurd rfl h
  | cons a t => rfl

theorem heappop_perm (l : List α) {p : α × List α} (h : heappop lt l = some p) :
    l.Perm (p.1 :: p.2) := by
  unfold heappop at h
  cases hg : l.getLast? with
  | none => rw [hg] at h; cases h
  | some lastelt =>
    rw [hg] at h
    dsimp only at h
    have hne : l ≠ [] := fun hl => by simp [hl] at hg
    have hlast : l.getLast hne = lastelt := by
      have := List.getLast?_eq_getLast l hne
      rw [hg] at this
      exact (Option.some_inj.mp this).symm
    have hsplit : l.dropLast ++ [lastelt] = l := by
      rw [← hlast]
      exact List.dropLast_append_getLast hne
    by_cases he : l.dropLast.isEmpty
    · rw [if_pos he] at h
      cases h
      have hd : l.dropLast = [] := List.isEmpty_iff.mp he
      rw [hd] at hsplit
      rw [← hsplit]
      exact List.Perm.refl _
    · rw [if_neg he] at h
      cases h
      have hdne : l.dropLast ≠ [] := fun hc => he (by simp [hc])
      have hdpos : 0 < l.dropLast.length := List.length_pos.mpr hdne
      have hhead : l.dropLast.headD lastelt = l.dropLast.head hdne :=
        headD_eq_head lastelt hdne
      have h1 : (siftup lt (l.dropLast.set 0 lastelt) 0).Perm (lastelt :: l.dropLast.eraseIdx 0) :=
        (siftup_perm lt _ 0).trans (set_perm_cons_eraseIdx _ 0 lastelt (by simpa using hdpos))
      have h2 : l.dropLast.eraseIdx 0 = l.dropLast.tail := by
        cases l.dropLast <;> rfl

      rw [h2] at h1
      have step1 : l.Perm (lastelt :: l.dropLast) := by
        conv_lhs => rw [← hsplit]
        exact List.perm_append_singleton lastelt l.dropLast
      have step2 : (lastelt :: l.dropLast).Perm
          (l.dropLast.head hdne :: lastelt :: l.dropLast.tail) := by
        conv_lhs => rw [← List.head_cons_tail l.dropLast hdne]
        exact List.Perm.swap _ _ _
      have step3 : (lastelt :: l.dropLast.tail).Perm
          (siftup lt (l.dropLast.set 0 lastelt) 0) := h1.symm
      rw [hhead]
      exact (step1.trans step2).trans (step3.cons _)

theorem popAll_perm (l : List α) : (popAll lt l).Perm l := by
  induction l using popAll.induct lt with
  | case1 l h =>
    rw [popAll, h]
    rw [(heappop_eq_none_iff lt l).mp h]
  | case2 l p h ih =>
    rw [popAll, h]
    exact (ih.cons p.1).trans (heappop_perm lt l h).symm

theorem popAll_mem {l : List α} {x : α} (h : x ∈ popAll lt l) : x ∈ l :=
  (popAll_perm lt l).mem_iff.mp h

theorem getElem?_set_eq {l : List α} {i : ℕ} (x : α) (hi : i < l.length) :
    (l.set i x)[i]? = some x :=
  (List.getElem?_set_self' ..).trans (by simp [List.getElem?_eq_getElem hi])

/-- The heap-order obligation at index `j`: the element there does not
compare strictly below its parent. -/
def PropAt (l : List α) (j : ℕ) : Prop :=
  ∀ x y, l[j]? = some x → l[parentIdx j]? = some y → lt x y = false

/-- `Anc r j` says that index `j` lies in the subtree rooted at `r` of the
implicit binary tree (equivalently, `r` is on the parent chain of `j`). -/
inductive Anc : ℕ → ℕ → Prop
  | refl (r : ℕ) : Anc r r
  | child {r j : ℕ} : Anc r (parentIdx j) → 0 < j → Anc r j

/-- The heap property restricted to the subtree rooted at `r`. -/
def HeapAt (l : List α) (r : ℕ) : Prop :=
  ∀ j, Anc r j → j ≠ r → PropAt lt l j

/-- The `heapq` min-heap invariant: no element compares strictly below its
parent. -/
def IsHeap (l : List α) : Prop :=
  HeapAt lt l 0

theorem Anc.le {r j : ℕ} (h : Anc r j) : r ≤ j := by
  induction h with
  | refl => exact Nat.le_refl _
  | child h hj ih =>
    simp only [parentIdx] at ih
    omega

theorem Anc.zero (j : ℕ) : Anc 0 j := by
  induction j using Nat.strong_induction_on with
  | _ j ih =>
    cases Nat.eq_zero_or_pos j with
    | inl h => rw [h]; exact Anc.refl 0
    | inr h => exact Anc.child (ih (parentIdx j) (by simp only [parentIdx]; omega)) h

theorem Anc.parent_of_ne {r j : ℕ} (h : Anc r j) (hne : j ≠ r) : Anc r (parentIdx j) := by
  cases h with
  | refl => exact absurd rfl hne
  | child h hj => exact h

theorem Anc.pos_of_ne {r j : ℕ} (h : Anc r j) (hne : j ≠ r) : 0 < j := by
  cases h with
  | refl => exact absurd rfl hne
  | child h hj => exact hj

theorem Anc.trans {i j k : ℕ} (h1 : Anc i j) (h2 : Anc j k) : Anc i k := by
  induction h2 with
  | refl => exact h1
  | child h hj ih => exact Anc.child ih hj

theorem Anc.total_above : ∀ j i r : ℕ, Anc i j → Anc r j → i ≤ r → Anc i r := by
  intro j
  induction j using Nat.strong_induction_on with
  | _ j ih =>
    intro i r hij hrj hir
    by_cases hjr : j = r
    · rw [← hjr]; exact hij
    · by_cases hji : j = i
      · rw [← hji] at hir
        exact absurd (Nat.le_antisymm hir hrj.le) hjr
      · have hjpos : 0 < j := hij.pos_of_ne hji
        exact ih (parentIdx j) (by simp only [parentIdx]; omega) i r
          (hij.parent_of_ne hji) (hrj.parent_of_ne hjr) hir

theorem Anc.exists_child {j r : ℕ} (h : Anc r j) (hne : j ≠ r) :
    ∃ c, parentIdx c = r ∧ 0 < c ∧ Anc c j := by
  induction h with
  | refl => exact absurd rfl hne
  | child h hj ih =>
    rename_i j
    by_cases hpj : parentIdx j = r
    · exact ⟨j, hpj, hj, Anc.refl j⟩
    · obtain ⟨c, hc1, hc2, hc3⟩ := ih hpj
      exact ⟨c, hc1, hc2, Anc.trans hc3 (Anc.child (Anc.refl _) hj)⟩

theorem Anc.child_lower {r j : ℕ} (h : Anc r j) (hne : j ≠ r) : 2 * r + 1 ≤ j := by
  have h1 : r ≤ parentIdx j := (h.parent_of_ne hne).le
  have h2 : 0 < j := h.pos_of_ne hne
  simp only [parentIdx] at h1
  omega

theorem siftdownAux_frame (l : List α) (n : α) (s pos : ℕ) :
    Anc s pos → ∀ j, ¬ Anc s j → (siftdownAux lt l n s pos)[j]? = l[j]? := by
  induction l, n, s, pos using siftdownAux.induct lt with
  | case1 l n s pos h parent hlt ih =>
    intro hanc j hj
    rw [siftdownAux, dif_pos h, if_pos hlt]
    have hanc2 : Anc s (parentIdx pos) := hanc.parent_of_ne (by omega)
    have hjpos : pos ≠ j := fun he => hj (he ▸ hanc)
    rw [ih hanc2 j hj, List.getElem?_set_ne hjpos]
  | case2 l n s pos h parent hlt =>
    intro hanc j hj
    rw [siftdownAux, dif_pos h, if_neg hlt]
    have hjpos : pos ≠ j := fun he => hj (he ▸ hanc)
    exact List.getElem?_set_ne hjpos
  | case3 l n s pos h =>
    intro hanc j hj
    rw [siftdownAux, dif_neg h]
    have hjpos : pos ≠ j := fun he => hj (he ▸ hanc)
    exact List.getElem?_set_ne hjpos

theorem siftupAux_frame (l : List α) (n : α) (s pos : ℕ) :
    Anc s pos → ∀ j, ¬ Anc s j → (siftupAux lt l n s pos)[j]? = l[j]? := by
  induction l, n, s, pos using siftupAux.induct lt with
  | case1 l n s pos hc childpos ih =>
    intro hanc j hj
    rw [siftupAux, dif_pos hc]
    have hcp : childpos = 2 * pos + 1 ∨ childpos = 2 * pos + 2 := by
      simp only [childpos]
      split
      · split
        · exact Or.inl rfl
        · exact Or.inr rfl
      · exact Or.inl rfl
    have hanc2 : Anc s childpos := by
      refine Anc.child ?_ (by omega)
      have : parentIdx childpos = pos := by
        simp only [parentIdx]
        omega
      rw [this]
      exact hanc
    have hjpos : pos ≠ j := fun he => hj (he ▸ hanc)
    have hmain := ih hanc2 j hj
    rw [List.getElem?_set_ne hjpos] at hmain
    exact hmain
  | case2 l n s pos hc =>
    intro hanc j hj
    rw [siftupAux, dif_neg hc]
    have hjpos : pos ≠ j := fun he => hj (he ▸ hanc)
    rw [siftdownAux_frame lt _ n s pos hanc j hj, List.getElem?_set_ne hjpos]

theorem siftup_frame (l : List α) (pos : ℕ) :
    ∀ j, ¬ Anc pos j → (siftup lt l pos)[j]? = l[j]? := by
  intro j hj
  unfold siftup
  cases h : l[pos]? with
  | none => rfl
  | some n => exact siftupAux_frame lt l n pos pos (Anc.refl pos) j hj

/-- Correctness of the bubble-up pass `_siftdown`: if the array satisfies
the heap property on the subtree of `s` away from the hole `pos`, and the
children of `pos` dominate both `newitem` and the value at the parent of
`pos`, then after the sift the subtree of `s` satisfies the heap
property. -/
theorem siftdownAux_heapAt
    (hasymm : ∀ a b : α, lt a b = true → lt b a = false)
    (hltrans : ∀ a b c : α, lt a b = true → lt b c = true → lt a c = true)
    (hletrans : ∀ a b c : α, lt b a = false → lt c b = false → lt c a = false)
    (l : List α) (n : α) (s pos : ℕ) :
    Anc s pos → pos < l.length →
    (∀ j, Anc s j → j ≠ s → j ≠ pos → parentIdx j ≠ pos → PropAt lt l j) →
    (∀ j x, Anc s j → parentIdx j = pos → j ≠ pos → l[j]? = some x → lt x n = false) →
    (pos ≠ s → ∀ j x y, Anc s j → parentIdx j = pos → j ≠ pos →
      l[j]? = some x → l[parentIdx pos]? = some y → lt x y = false) →
    HeapAt lt (siftdownAux lt l n s pos) s := by
  induction l, n, s, pos using siftdownAux.induct lt with
  | case1 l n s pos h parent hlt ih =>
    intro hanc hpos hA2 hA3 hA4
    rw [siftdownAux, dif_pos h, if_pos hlt]
    have hpplt : parentIdx pos < pos := by simp only [parentIdx]; omega
    have hpplen : parentIdx pos < l.length := by omega
    have hpe : l[parentIdx pos]? = some parent := by
      simpa [parent] using getElem?_of_lt_length n hpplen
    have hposs : pos ≠ s := by omega
    have hsle : s ≤ parentIdx pos := (hanc.parent_of_ne hposs).le
    have hsib : ∀ j, parentIdx j = parentIdx pos → j ≠ parentIdx pos →
        j ≠ s ∧ parentIdx j ≠ pos := by
      intro j h1 h3
      have h4 := hsle
      simp only [parentIdx] at h1 h3 h4 ⊢
      omega
    have hsibval : ∀ j x, Anc s j → parentIdx j = parentIdx pos → j ≠ pos →
        j ≠ parentIdx pos → l[j]? = some x → lt x parent = false := by
      intro j x hj h1 h2 h3 hx
      obtain ⟨hjs, hjp⟩ := hsib j h1 h3
      refine hA2 j hj hjs h2 hjp x parent hx ?_
      rw [h1]
      exact hpe
    apply ih
    · exact hanc.parent_of_ne hposs
    · simpa using hpplen
    · intro j hj hjs hjpp hjpar x y hx hy
      have hjpos : j ≠ pos := fun he => hjpar (by rw [he])
      rw [List.getElem?_set_ne (Ne.symm hjpos)] at hx
      by_cases hpj : parentIdx j = pos
      · rw [hpj, getElem?_set_eq parent hpos] at hy
        have hyp : parent = y := Option.some_inj.mp hy
        rw [← hyp]
        exact hA4 hposs j x parent hj hpj hjpos hx hpe
      · rw [List.getElem?_set_ne (Ne.symm hpj)] at hy
        exact hA2 j hj hjs hjpos hpj x y hx hy
    · intro j x hj hjpar hjne hx
      by_cases hjpos : j = pos
      · rw [hjpos, getElem?_set_eq parent hpos] at hx
        have hxp : parent = x := Option.some_inj.mp hx
        rw [← hxp]
        exact hasymm n parent hlt
      · rw [List.getElem?_set_ne (Ne.symm hjpos)] at hx
        have hstep : lt x parent = false := hsibval j x hj hjpar hjpos hjne hx
        cases hxn : lt x n with
        | false => rfl
        | true =>
          have hcon : lt x parent = true := hltrans x n parent hxn hlt
          rw [hstep] at hcon
          exact absurd hcon Bool.false_ne_true
    · intro hpps j x y hj hjpar hjne hx hy
      have hgp : parentIdx (parentIdx pos) ≠ pos := by simp only [parentIdx]; omega
      rw [List.getElem?_set_ne (Ne.symm hgp)] at hy
      have hparul : lt parent y = false := by
        refine hA2 (parentIdx pos) (hanc.parent_of_ne hposs) hpps ?_ hgp parent y hpe hy
        omega
      by_cases hjpos : j = pos
      · rw [hjpos, getElem?_set_eq parent hpos] at hx
        have hxp : parent = x := Option.some_inj.mp hx
        rw [← hxp]
        exact hparul
      · rw [List.getElem?_set_ne (Ne.symm hjpos)] at hx
        have hstep : lt x parent = false := hsibval j x hj hjpar hjpos hjne hx
        exact hletrans y parent x hparul hstep
  | case2 l n s pos h parent hlt =>
    intro hanc hpos hA2 hA3 hA4
    rw [siftdownAux, dif_pos h, if_neg hlt]
    have hpplen : parentIdx pos < l.length := by
      have : parentIdx pos < pos := by simp only [parentIdx]; omega
      omega
    have hpe : l[parentIdx pos]? = some parent := by
      simpa [parent] using getElem?_of_lt_length n hpplen
    intro j hj hjs x y hx hy
    by_cases hjpos : j = pos
    · rw [hjpos, getElem?_set_eq n hpos] at hx
      have hxn : n = x := Option.some_inj.mp hx
      have hppne : parentIdx pos ≠ pos := by simp only [parentIdx]; omega
      rw [hjpos, List.getElem?_set_ne (Ne.symm (Ne.symm hppne).symm)] at hy
      rw [hpe] at hy
      have hyp : parent = y := Option.some_inj.mp hy
      rw [← hxn, ← hyp]
      simpa using hlt
    · rw [List.getElem?_set_ne (Ne.symm hjpos)] at hx
      by_cases hpj : parentIdx j = pos
      · rw [hpj, getElem?_set_eq n hpos] at hy
        have hyn : n = y := Option.some_inj.mp hy
        rw [← hyn]
        exact hA3 j x hj hpj hjpos hx
      · rw [List.getElem?_set_ne (Ne.symm hpj)] at hy
        exact hA2 j hj hjs hjpos hpj x y hx hy
  | case3 l n s pos h =>
    intro hanc hpos hA2 hA3 hA4
    have hps : pos = s := by
      have := hanc.le
      omega
    rw [siftdownAux, dif_neg h]
    intro j hj hjs x y hx hy
    have hjpos : j ≠ pos := by rw [hps]; exact hjs
    rw [List.getElem?_set_ne (Ne.symm hjpos)] at hx
    by_cases hpj : parentIdx j = pos
    · rw [hpj, getElem?_set_eq n hpos] at hy
      have hyn : n = y := Option.some_inj.mp hy
      rw [← hyn]
      exact hA3 j x hj hpj hjpos hx
    · rw [List.getElem?_set_ne (Ne.symm hpj)] at hy
      exact hA2 j hj hjs hjpos hpj x y hx hy

/-- Correctness of the descent pass `_siftup`: under the same away-from-hole
precondition, the subtree of `s` satisfies the heap property afterwards. -/
theorem siftupAux_heapAt
    (hasymm : ∀ a b : α, lt a b = true → lt b a = false)
    (hltrans : ∀ a b c : α, lt a b = true → lt b c = true → lt a c = true)
    (hletrans : ∀ a b c : α, lt b a = false → lt c b = false → lt c a = false)
    (l : List α) (n : α) (s pos : ℕ) :
    Anc s pos → pos < l.length →
    (∀ j, Anc s j → j ≠ s → j ≠ pos → parentIdx j ≠ pos → PropAt lt l j) →
    (pos ≠ s → ∀ j x y, Anc s j → parentIdx j = pos → j ≠ pos →
      l[j]? = some x → l[parentIdx pos]? = some y → lt x y = false) →
    HeapAt lt (siftupAux lt l n s pos) s := by
  induction l, n, s, pos using siftupAux.induct lt with
  | case1 l n s pos hc childpos ih =>
    intro hanc hpos hB2 hB3
    rw [siftupAux, dif_pos hc]
    have hcp : childpos = 2 * pos + 1 ∨ childpos = 2 * pos + 2 := by
      simp only [childpos]
      split
      · split
        · exact Or.inl rfl
        · exact Or.inr rfl
      · exact Or.inl rfl
    have hcl : childpos < l.length := by
      simp only [childpos]
      split
      · split <;> omega
      · omega
    have hcgt : pos < childpos := by omega
    have hpc : parentIdx childpos = pos := by
      simp only [parentIdx]
      omega
    have hanc2 : Anc s childpos := Anc.child (by rw [hpc]; exact hanc) (by omega)
    have hcv : l[childpos]? = some (l.getD childpos n) := getElem?_of_lt_length n hcl
    have hF2 : ∀ d, (d = 2 * pos + 1 ∨ d = 2 * pos + 2) → d < l.length → d ≠ childpos →
        lt (l.getD d n) (l.getD childpos n) = false := by
      by_cases h2 : 2 * pos + 2 < l.length
      · by_cases hbr : lt (l.getD (2 * pos + 1) n) (l.getD (2 * pos + 2) n) = true
        · have hcpv : childpos = 2 * pos + 1 := by
            simp only [childpos]
            rw [dif_pos h2, dif_pos hbr]
          intro d hd hdl hdc
          have hd2 : d = 2 * pos + 2 := by omega
          rw [hd2, hcpv]
          exact hasymm _ _ hbr
        · have hcpv : childpos = 2 * pos + 2 := by
            simp only [childpos]
            rw [dif_pos h2, dif_neg hbr]
          intro d hd hdl hdc
          have hd1 : d = 2 * pos + 1 := by omega
          rw [hd1, hcpv]
          simpa using hbr
      · have hcpv : childpos = 2 * pos + 1 := by
          simp only [childpos]
          rw [dif_neg h2]
        intro d hd hdl hdc
        omega
    apply ih
    · exact hanc2
    · simpa using hcl
    · intro j hj hjs hjc hjpc x y hx hy
      by_cases hjpos : j = pos
      · have hposs : pos ≠ s := hjpos ▸ hjs
        rw [hjpos] at hx hy
        rw [getElem?_set_eq (l.getD childpos n) hpos] at hx
        have hxv : l.getD childpos n = x := Option.some_inj.mp hx
        have hppne : parentIdx pos ≠ pos := by
          have := hanc.le
          simp only [parentIdx]
          omega
        rw [List.getElem?_set_ne (Ne.symm hppne)] at hy
        rw [← hxv]
        exact hB3 hposs childpos (l.getD childpos n) y hanc2 hpc (by omega) hcv hy
      · rw [List.getElem?_set_ne (Ne.symm hjpos)] at hx
        by_cases hpj : parentIdx j = pos
        · rw [hpj, getElem?_set_eq (l.getD childpos n) hpos] at hy
          have hyv : l.getD childpos n = y := Option.some_inj.mp hy
          rw [← hyv]
          have hd12 : j = 2 * pos + 1 ∨ j = 2 * pos + 2 := by
            simp only [parentIdx] at hpj
            omega
          have hjl : j < l.length := lt_length_of_getElem? hx
          have hxd : l[j]? = some (l.getD j n) := getElem?_of_lt_length n hjl
          rw [hx] at hxd
          have hxd2 : x = l.getD j n := Option.some_inj.mp hxd
          rw [hxd2]
          exact hF2 j hd12 hjl hjc
        · rw [List.getElem?_set_ne (Ne.symm hpj)] at hy
          exact hB2 j hj hjs hjpos hpj x y hx hy
    · intro hcs j x y hj hjpar hjne hx hy
      rw [hpc, getElem?_set_eq (l.getD childpos n) hpos] at hy
      have hyv : l.getD childpos n = y := Option.some_inj.mp hy
      rw [← hyv]
      have hjgt : childpos < j := by
        have h6 := hjpar
        simp only [parentIdx] at h6
        omega
      have hjpos : j ≠ pos := by omega
      rw [List.getElem?_set_ne (Ne.symm hjpos)] at hx
      refine hB2 j hj ?_ hjpos ?_ x (l.getD childpos n) hx ?_
      · have := hanc.le
        omega
      · rw [hjpar]
        omega
      · rw [hjpar]
        exact hcv
  | case2 l n s pos hc =>
    intro hanc hpos hB2 hB3
    rw [siftupAux, dif_neg hc]
    apply siftdownAux_heapAt lt hasymm hltrans hletrans (l.set pos n) n s pos hanc
      (by simpa using hpos)
    · intro j hj hjs hjpos hjpar x y hx hy
      rw [List.getElem?_set_ne (Ne.symm hjpos)] at hx
      rw [List.getElem?_set_ne (Ne.symm hjpar)] at hy
      exact hB2 j hj hjs hjpos hjpar x y hx hy
    · intro j x hj hjpar hjne hx
      have hjl : j < (l.set pos n).length := lt_length_of_getElem? hx
      simp only [List.length_set] at hjl
      simp only [parentIdx] at hjpar
      omega
    · intro hps j x y hj hjpar hjne hx hy
      have hjl : j < (l.set pos n).length := lt_length_of_getElem? hx
      simp only [List.length_set] at hjl
      simp only [parentIdx] at hjpar
      omega

theorem siftup_heapAt
    (hasymm : ∀ a b : α, lt a b = true → lt b a = false)
    (hltrans : ∀ a b c : α, lt a b = true → lt b c = true → lt a c = true)
    (hletrans : ∀ a b c : α, lt b a = false → lt c b = false → lt c a = false)
    (l : List α) (pos : ℕ) (hpos : pos < l.length)
    (hB2 : ∀ j, Anc pos j → j ≠ pos → parentIdx j ≠ pos → PropAt lt l j) :
    HeapAt lt (siftup lt l pos) pos := by
  unfold siftup
  cases h : l[pos]? with
  | none =>
    have := List.getElem?_eq_getElem hpos
    rw [h] at this
    cases this
  | some n =>
    apply siftupAux_heapAt lt hasymm hltrans hletrans l n pos pos (Anc.refl pos) hpos
    · intro j hj hjs hjp hjpar
      exact hB2 j hj hjp hjpar
    · intro hps
      exact absurd rfl hps

theorem isHeap_nil : IsHeap lt ([] : List α) := by
  intro j hj hjne x y hx hy
  simp at hx

theorem heappush_isHeap
    (hasymm : ∀ a b : α, lt a b = true → lt b a = false)
    (hltrans : ∀ a b c : α, lt a b = true → lt b c = true → lt a c = true)
    (hletrans : ∀ a b c : α, lt b a = false → lt c b = false → lt c a = false)
    (l : List α) (x : α) (hH : IsHeap lt l) : IsHeap lt (heappush lt l x) := by
  show HeapAt lt (heappush lt l x) 0
  unfold heappush
  apply siftdownAux_heapAt lt hasymm hltrans hletrans (l ++ [x]) x 0 l.length
    (Anc.zero _) (by simp)
  · intro j hj hjs hjpos hjpar x0 y hx hy
    have hjl : j < (l ++ [x]).length := lt_length_of_getElem? hx
    simp at hjl
    have hjl2 : j < l.length := by omega
    have hpjlt : parentIdx j ≤ j := by
      simp only [parentIdx]
      omega
    have hpjl : parentIdx j < l.length := by omega
    rw [List.getElem?_append_left hjl2] at hx
    rw [List.getElem?_append_left hpjl] at hy
    exact hH j (Anc.zero j) hjs x0 y hx hy
  · intro j x0 hj hjpar hjne hx
    have hjl : j < (l ++ [x]).length := lt_length_of_getElem? hx
    simp at hjl
    simp only [parentIdx] at hjpar
    omega
  · intro hps j x0 y hj hjpar hjne hx hy
    have hjl : j < (l ++ [x]).length := lt_length_of_getElem? hx
    simp at hjl
    simp only [parentIdx] at hjpar
    omega

theorem heappop_isHeap
    (hasymm : ∀ a b : α, lt a b = true → lt b a = false)
    (hltrans : ∀ a b c : α, lt a b = true → lt b c = true → lt a c = true)
    (hletrans : ∀ a b c : α, lt b a = false → lt c b = false → lt c a = false)
    (l : List α) {p : α × List α} (hH : IsHeap lt l) (h : heappop lt l = some p) :
    IsHeap lt p.2 := by
  unfold heappop at h
  cases hg : l.getLast? with
  | none => rw [hg] at h; cases h
  | some lastelt =>
    rw [hg] at h
    dsimp only at h
    by_cases he : l.dropLast.isEmpty
    · rw [if_pos he] at h
      cases h
      exact isHeap_nil lt
    · rw [if_neg he] at h
      cases h
      show HeapAt lt (siftup lt (l.dropLast.set 0 lastelt) 0) 0
      have hdne : l.dropLast ≠ [] := fun hc => he (by simp [hc])
      have hdpos : 0 < l.dropLast.length := List.length_pos.mpr hdne
      have hne2 : l ≠ [] := fun hc => by simp [hc] at hg
      have hlift : ∀ (k : ℕ) (v : α), l.dropLast[k]? = some v → l[k]? = some v := by
        intro k v hk
        have hkl : k < l.dropLast.length := lt_length_of_getElem? hk
        have hsplit : l.dropLast ++ [l.getLast hne2] = l := List.dropLast_append_getLast hne2
        rw [← hsplit, List.getElem?_append_left hkl]
        exact hk
      apply siftup_heapAt lt hasymm hltrans hletrans _ 0 (by simpa using hdpos)
      intro j hj hjp hjpar x y hx hy
      rw [List.getElem?_set_ne hjp.symm] at hx
      rw [List.getElem?_set_ne (Ne.symm hjpar)] at hy
      exact hH j (Anc.zero j) hjp x y (hlift j x hx) (hlift _ y hy)

theorem heapAt_of_anc {l : List α} {r r2 : ℕ} (hH : HeapAt lt l r) (h : Anc r r2) :
    HeapAt lt l r2 := by
  intro j hj hjne
  refine hH j (h.trans hj) ?_
  intro hjr
  have h1 : r2 ≤ j := hj.le
  have h2 : r ≤ r2 := h.le
  omega

theorem heapAt_of_out (l : List α) (r : ℕ) (hr : l.length ≤ 2 * r + 1) : HeapAt lt l r := by
  intro j hj hjne x y hx hy
  have hjl : j < l.length := lt_length_of_getElem? hx
  have := hj.child_lower hjne
  omega

theorem heapifyAux_heapAt
    (hasymm : ∀ a b : α, lt a b = true → lt b a = false)
    (hltrans : ∀ a b c : α, lt a b = true → lt b c = true → lt a c = true)
    (hletrans : ∀ a b c : α, lt b a = false → lt c b = false → lt c a = false) :
    ∀ (k : ℕ) (l : List α),
      (∀ r, k ≤ r → HeapAt lt l r) → ∀ r, HeapAt lt (heapifyAux lt l k) r := by
  intro k
  induction k with
  | zero => intro l h r; exact h r (Nat.zero_le r)
  | succ i ih =>
    intro l h r
    show HeapAt lt (heapifyAux lt (siftup lt l i) i) r
    apply ih
    intro r2 hr2
    by_cases hil : i < l.length
    · have hHi : HeapAt lt (siftup lt l i) i := by
        apply siftup_heapAt lt hasymm hltrans hletrans l i hil
        intro j hj hjne hjpar
        obtain ⟨c, hc1, hc2, hc3⟩ := hj.exists_child hjne
        have hcge : i + 1 ≤ c := by
          simp only [parentIdx] at hc1
          omega
        refine h c hcge j hc3 ?_
        intro hjc
        exact hjpar (by rw [hjc]; exact hc1)
      by_cases hanc : Anc i r2
      · exact heapAt_of_anc lt hHi hanc
      · intro j hj hjne x y hx hy
        have hji : ¬ Anc i j := fun hc => hanc (Anc.total_above j i r2 hc hj hr2)
        have hpja : Anc r2 (parentIdx j) := hj.parent_of_ne hjne
        have hpji : ¬ Anc i (parentIdx j) :=
          fun hc => hanc (Anc.total_above (parentIdx j) i r2 hc hpja hr2)
        rw [siftup_frame lt l i j hji] at hx
        rw [siftup_frame lt l i (parentIdx j) hpji] at hy
        have hr2i : i + 1 ≤ r2 := by
          rcases Nat.eq_or_lt_of_le hr2 with he | hl
          · exact absurd (he ▸ Anc.refl i) hanc
          · omega
        exact h r2 hr2i j hj hjne x y hx hy
    · have hsame : siftup lt l i = l := by
        unfold siftup
        rw [List.getElem?_eq_none (by omega)]
      rw [hsame]
      by_cases hr2i : i + 1 ≤ r2
      · exact h r2 hr2i
      · have hri : r2 = i := by omega
        rw [hri]
        exact heapAt_of_out lt l i (by omega)

theorem heapify_isHeap
    (hasymm : ∀ a b : α, lt a b = true → lt b a = false)
    (hltrans : ∀ a b c : α, lt a b = true → lt b c = true → lt a c = true)
    (hletrans : ∀ a b c : α, lt b a = false → lt c b = false → lt c a = false)
    (l : List α) : IsHeap lt (heapify lt l) := by
  show HeapAt lt (heapifyAux lt l (l.length / 2)) 0
  apply heapifyAux_heapAt lt hasymm hltrans hletrans (l.length / 2) l
  intro r hr
  exact heapAt_of_out lt l r (by omega)

theorem lt_self_eq_false (hasymm : ∀ a b : α, lt a b = true → lt b a = false) (x : α) :
    lt x x = false := by
  cases h : lt x x with
  | false => rfl
  | true =>
    have h2 := hasymm x x h
    rw [h] at h2
    exact h2

theorem heapAt_root_le
    (hasymm : ∀ a b : α, lt a b = true → lt b a = false)
    (hletrans : ∀ a b c : α, lt b a = false → lt c b = false → lt c a = false)
    {l : List α} {r : ℕ} (hH : HeapAt lt l r) :
    ∀ (j : ℕ) (x y : α), Anc r j → l[j]? = some x → l[r]? = some y → lt x y = false := by
  intro j
  induction j using Nat.strong_induction_on with
  | _ j ihj =>
    intro x y hAnc hx hy
    by_cases hjr : j = r
    · rw [hjr] at hx
      rw [hx] at hy
      have hxy : x = y := Option.some_inj.mp hy
      rw [← hxy]
      exact lt_self_eq_false lt hasymm x
    · have hpja : Anc r (parentIdx j) := hAnc.parent_of_ne hjr
      have hjpos : 0 < j := hAnc.pos_of_ne hjr
      have hjl : j < l.length := lt_length_of_getElem? hx
      have hpl : parentIdx j < l.length := by
        simp only [parentIdx]
        omega
      have hz := getElem?_of_lt_length x hpl
      have hstep : lt x (l.getD (parentIdx j) x) = false := hH j hAnc hjr x _ hx hz
      have hrec : lt (l.getD (parentIdx j) x) y = false :=
        ihj (parentIdx j) (by simp only [parentIdx]; omega) _ y hpja hz hy
      exact hletrans y _ x hrec hstep

theorem exists_getElem?_of_mem {l : List α} {x : α} (h : x ∈ l) :
    ∃ k : ℕ, l[k]? = some x := by
  obtain ⟨n, hn⟩ := List.get_of_mem h
  refine ⟨(n : ℕ), ?_⟩
  simp [← hn]

theorem heappop_fst (l : List α) {p : α × List α} (h : heappop lt l = some p) :
    l[0]? = some p.1 := by
  unfold heappop at h
  cases hg : l.getLast? with
  | none => rw [hg] at h; cases h
  | some lastelt =>
    rw [hg] at h
    dsimp only at h
    have hne : l ≠ [] := fun hl => by simp [hl] at hg
    have hlast : l.getLast hne = lastelt := by
      have h7 := List.getLast?_eq_getLast l hne
      rw [hg] at h7
      exact (Option.some_inj.mp h7).symm
    have hsplit : l.dropLast ++ [lastelt] = l := by
      rw [← hlast]
      exact List.dropLast_append_getLast hne
    by_cases he : l.dropLast.isEmpty
    · rw [if_pos he] at h
      cases h
      have hd : l.dropLast = [] := List.isEmpty_iff.mp he
      rw [hd] at hsplit
      rw [← hsplit]
      rfl
    · rw [if_neg he] at h
      cases h
      have hdne : l.dropLast ≠ [] := fun hc => he (by simp [hc])
      show l[0]? = some (l.dropLast.headD lastelt)
      rw [headD_eq_head lastelt hdne]
      conv_lhs => rw [← hsplit]
      rw [List.getElem?_append_left (List.length_pos.mpr hdne)]
      rw [List.getElem?_eq_getElem (List.length_pos.mpr hdne), List.getElem_zero]

theorem popAll_pairwise
    (hasymm : ∀ a b : α, lt a b = true → lt b a = false)
    (hltrans : ∀ a b c : α, lt a b = true → lt b c = true → lt a c = true)
    (hletrans : ∀ a b c : α, lt b a = false → lt c b = false → lt c a = false)
    (l : List α) :
    IsHeap lt l → (popAll lt l).Pairwise (fun a b => lt b a = false) := by
  induction l using popAll.induct lt with
  | case1 l h =>
    intro _
    rw [popAll, h]
    exact List.Pairwise.nil
  | case2 l p h ih =>
    intro hH
    rw [popAll, h]
    refine List.Pairwise.cons ?_ (ih (heappop_isHeap lt hasymm hltrans hletrans l hH h))
    intro b hb
    have hbp : b ∈ p.2 := popAll_mem lt hb
    have hbl : b ∈ l := (heappop_perm lt l h).mem_iff.mpr (List.mem_cons_of_mem _ hbp)
    obtain ⟨k, hk⟩ := exists_getElem?_of_mem hbl
    exact heapAt_root_le lt hasymm hletrans hH k b p.1 (Anc.zero k) hk (heappop_fst lt l h)

theorem isHeap_set_zero_congr (l : List α) (a b : α) (h0 : l[0]? = some b)
    (hH : IsHeap lt l) (hab : ∀ z : α, lt z a = lt z b) : IsHeap lt (l.set 0 a) := by
  intro j hj hj0 x y hx hy
  rw [List.getElem?_set_ne (Ne.symm hj0)] at hx
  by_cases hpj : parentIdx j = 0
  · rw [hpj, getElem?_set_eq a (lt_length_of_getElem? h0)] at hy
    have hya : a = y := Option.some_inj.mp hy
    rw [← hya, hab x]
    refine hH j hj hj0 x b hx ?_
    rw [hpj]
    exact h0
  · rw [List.getElem?_set_ne (Ne.symm hpj)] at hy
    exact hH j hj hj0 x y hx hy

end Heapq

/-! ## Order comparison facts -/

theorem ltb_iff (a b : Order) : Order.ltb a b = true ↔
    (a.priceVal < b.priceVal ∨ (a.priceVal = b.priceVal ∧ a.timestamp < b.timestamp)) := by
  unfold Order.ltb
  by_cases h : a.priceVal = b.priceVal
  · rw [if_neg (by simp [h])]
    simp [h]
  · rw [if_pos h]
    simp [h]

theorem ltb_asymm : ∀ a b : Order, Order.ltb a b = true → Order.ltb b a = false := by
  intro a b h
  rw [ltb_iff] at h
  rw [Bool.eq_false_iff]
  intro hba
  rw [ltb_iff] at hba
  rcases h with h | ⟨h1, h2⟩ <;> rcases hba with hb | ⟨hb1, hb2⟩
  · exact absurd (lt_trans h hb) (lt_irrefl _)
  · rw [hb1] at h
    exact absurd h (lt_irrefl _)
  · rw [h1] at hb
    exact absurd hb (lt_irrefl _)
  · omega

theorem ltb_trans : ∀ a b c : Order,
    Order.ltb a b = true → Order.ltb b c = true → Order.ltb a c = true := by
  intro a b c h1 h2
  rw [ltb_iff] at h1 h2 ⊢
  rcases h1 with h1 | ⟨h1a, h1b⟩ <;> rcases h2 with h2 | ⟨h2a, h2b⟩
  · exact Or.inl (lt_trans h1 h2)
  · exact Or.inl (by rw [← h2a]; exact h1)
  · exact Or.inl (by rw [h1a]; exact h2)
  · exact Or.inr ⟨h1a.trans h2a, by omega⟩

theorem ltb_le_trans : ∀ a b c : Order,
    Order.ltb b a = false → Order.ltb c b = false → Order.ltb c a = false := by
  intro a b c h1 h2
  cases hca : Order.ltb c a with
  | false => rfl
  | true =>
    rw [Bool.eq_false_iff] at h1 h2
    rw [ltb_iff] at hca
    have h1a : ¬ (b.priceVal < a.priceVal ∨ (b.priceVal = a.priceVal ∧ b.timestamp < a.timestamp)) :=
      fun hc => h1 ((ltb_iff b a).mpr hc)
    have h2a : ¬ (c.priceVal < b.priceVal ∨ (c.priceVal = b.priceVal ∧ c.timestamp < b.timestamp)) :=
      fun hc => h2 ((ltb_iff c b).mpr hc)
    push_neg at h1a h2a
    have hab : a.priceVal ≤ b.priceVal := h1a.1
    have hbc : b.priceVal ≤ c.priceVal := h2a.1
    rcases hca with hc | ⟨hc1, hc2⟩
    · linarith
    · have h3 : b.priceVal = a.priceVal := le_antisymm (by rw [← hc1]; exact hbc) hab
      have h4 : c.priceVal = b.priceVal := by rw [h3, hc1]
      have t1 : a.timestamp ≤ b.timestamp := h1a.2 h3
      have t2 : b.timestamp ≤ c.timestamp := h2a.2 h4
      omega

theorem ltb_size_irrel (a : Order) (s : ℤ) (z : Order) :
    Order.ltb z { a with size := s } = Order.ltb z a := rfl

/-! ## Book invariants -/

/-- Well-formedness of a resting order on the given side: exactly the facts
that `_add_order` guarantees for everything it pushes. -/
def WF (side : OrderSide) (o : Order) : Prop :=
  o.side = side ∧ o.type = OrderType.limit ∧ o.get_price ≠ 0

theorem WF_size_irrel (side : OrderSide) (a : Order) (s : ℤ) (h : WF side a) :
    WF side { a with size := s } := h

/-- The limit order book invariant: both sides are `heapq` heaps of
well-formed orders of the matching side. -/
def BookInv (b : LimitOrderBook) : Prop :=
  Heapq.IsHeap Order.ltb b.bid_orders ∧ Heapq.IsHeap Order.ltb b.ask_orders ∧
  (∀ o ∈ b.bid_orders, WF OrderSide.buy o) ∧ (∀ o ∈ b.ask_orders, WF OrderSide.sell o)

theorem mem_heappush {α : Type} (lt : α → α → Bool) {l : List α} {x y : α}
    (h : y ∈ Heapq.heappush lt l x) : y ∈ l ∨ y = x := by
  have h2 := (Heapq.heappush_perm lt l x).mem_iff.mp h
  simpa using h2

theorem mem_heappopRest {α : Type} (lt : α → α → Bool) {l : List α} {y : α}
    (h : y ∈ Heapq.heappopRest lt l) : y ∈ l := by
  unfold Heapq.heappopRest at h
  cases hp : Heapq.heappop lt l with
  | none => rw [hp] at h; simp at h
  | some p =>
    rw [hp] at h
    exact (Heapq.heappop_perm lt l hp).mem_iff.mpr (List.mem_cons_of_mem _ h)

theorem mem_heapify {α : Type} (lt : α → α → Bool) {l : List α} {y : α}
    (h : y ∈ Heapq.heapify lt l) : y ∈ l :=
  (Heapq.heapify_perm lt l).mem_iff.mp h

theorem isHeap_heappopRest (l : List Order) (hH : Heapq.IsHeap Order.ltb l) :
    Heapq.IsHeap Order.ltb (Heapq.heappopRest Order.ltb l) := by
  unfold Heapq.heappopRest
  cases hp : Heapq.heappop Order.ltb l with
  | none => exact Heapq.isHeap_nil Order.ltb
  | some p => exact Heapq.heappop_isHeap Order.ltb ltb_asymm ltb_trans ltb_le_trans l hH hp

theorem isHeap_heappush_order (l : List Order) (x : Order) (hH : Heapq.IsHeap Order.ltb l) :
    Heapq.IsHeap Order.ltb (Heapq.heappush Order.ltb l x) :=
  Heapq.heappush_isHeap Order.ltb ltb_asymm ltb_trans ltb_le_trans l x hH

theorem isHeap_heapify_order (l : List Order) : Heapq.IsHeap Order.ltb (Heapq.heapify Order.ltb l) :=
  Heapq.heapify_isHeap Order.ltb ltb_asymm ltb_trans ltb_le_trans l

theorem isHeap_cons_set_head (best b1 : Order) (rest : List Order)
    (hH : Heapq.IsHeap Order.ltb (best :: rest)) (hb : ∀ z, Order.ltb z b1 = Order.ltb z best) :
    Heapq.IsHeap Order.ltb (b1 :: rest) := by
  have h0 : (best :: rest)[0]? = some best := by simp
  have h2 := Heapq.isHeap_set_zero_congr Order.ltb (best :: rest) b1 best h0 hH hb
  simpa using h2

/-! ## Matching loop specifications -/

theorem match_buy_market_loop_spec (o : Order) (asks : List Order) (evs : List Event) :
    (∃ sz : ℤ, (match_buy_market_loop o asks evs).1 = { o with size := sz }) ∧
    (∀ P : Order → Prop, (∀ (a : Order) (s : ℤ), P a → P { a with size := s }) →
      (∀ a ∈ asks, P a) → ∀ a ∈ (match_buy_market_loop o asks evs).2.1, P a) ∧
    (Heapq.IsHeap Order.ltb asks → Heapq.IsHeap Order.ltb (match_buy_market_loop o asks evs).2.1) ∧
    (∀ e ∈ (match_buy_market_loop o asks evs).2.2, e ∈ evs ∨
      ∃ (pr : ℚ) (sz aid : ℤ), (∃ a ∈ asks, a.id = aid) ∧
        e = Event.trade 0 pr sz o.id aid o.parent_id o.timestamp) := by
  induction o, asks, evs using match_buy_market_loop.induct with
  | case1 o evs =>
    rw [match_buy_market_loop]
    refine ⟨⟨o.size, rfl⟩, ?_, ?_, ?_⟩
    · intro P hP hall a ha
      simp at ha
    · intro _
      exact Heapq.isHeap_nil Order.ltb
    · intro e he
      exact Or.inl he
  | case2 o evs best rest h =>
    rw [match_buy_market_loop, if_pos h]
    refine ⟨⟨o.size, rfl⟩, ?_, ?_, ?_⟩
    · intro P hP hall a ha
      exact hall a ha
    · intro hH
      exact hH
    · intro e he
      exact Or.inl he
  | case3 o evs best rest hle trade ev best1 order1 hpop ih =>
    obtain ⟨ih1, ih2, ih3, ih4⟩ := ih
    rw [match_buy_market_loop, if_neg hle]
    dsimp only
    rw [if_pos (by simp only [trade] at hpop; exact hpop)]
    simp only [trade, ev, best1, order1] at ih1 ih2 ih3 ih4
    refine ⟨?_, ?_, ?_, ?_⟩
    · obtain ⟨sz, hsz⟩ := ih1
      exact ⟨sz, hsz⟩
    · intro P hP hall a ha
      refine ih2 P hP ?_ a ha
      intro a2 ha2
      rcases List.mem_cons.mp (mem_heappopRest Order.ltb ha2) with h3 | h3
      · rw [h3]
        exact hP best _ (hall best (List.mem_cons_self best rest))
      · exact hall a2 (List.mem_cons_of_mem _ h3)
    · intro hH
      apply ih3
      apply isHeap_heappopRest
      exact isHeap_cons_set_head best _ rest hH (fun z => rfl)
    · intro e he
      rcases ih4 e he with h2 | ⟨pr, sz, aid, ⟨a, ha, haid⟩, hesh⟩
      · rcases List.mem_append.mp h2 with h3 | h3
        · exact Or.inl h3
        · have he2 := List.mem_singleton.mp h3
          refine Or.inr ⟨best.get_price, min best.size o.size, best.id,
            ⟨best, List.mem_cons_self best rest, rfl⟩, ?_⟩
          rw [he2]
          rfl
      · rcases List.mem_cons.mp (mem_heappopRest Order.ltb ha) with h3 | h3
        · refine Or.inr ⟨pr, sz, aid, ⟨best, List.mem_cons_self best rest, ?_⟩, hesh⟩
          rw [← haid, h3]
        · exact Or.inr ⟨pr, sz, aid, ⟨a, List.mem_cons_of_mem _ h3, haid⟩, hesh⟩
  | case4 o evs best rest hle trade hpop =>
    rw [match_buy_market_loop, if_neg hle]
    dsimp only
    rw [if_neg (by simp only [trade] at hpop; exact hpop)]
    refine ⟨⟨o.size - trade, rfl⟩, ?_, ?_, ?_⟩
    · intro P hP hall a ha
      rcases List.mem_cons.mp ha with h3 | h3
      · rw [h3]
        exact hP best _ (hall best (List.mem_cons_self best rest))
      · exact hall a (List.mem_cons_of_mem _ h3)
    · intro hH
      exact isHeap_cons_set_head best _ rest hH (fun z => rfl)
    · intro e he
      rcases List.mem_append.mp he with h2 | h2
      · exact Or.inl h2
      · have he2 := List.mem_singleton.mp h2
        refine Or.inr ⟨best.get_price, min best.size o.size, best.id,
          ⟨best, List.mem_cons_self best rest, rfl⟩, ?_⟩
        rw [he2]
        rfl

theorem match_sell_market_loop_spec (o : Order) (bids : List Order) (evs : List Event) :
    (∃ sz : ℤ, (match_sell_market_loop o bids evs).1 = { o with size := sz }) ∧
    (∀ P : Order → Prop, (∀ (a : Order) (s : ℤ), P a → P { a with size := s }) →
      (∀ a ∈ bids, P a) → ∀ a ∈ (match_sell_market_loop o bids evs).2.1, P a) ∧
    (Heapq.IsHeap Order.ltb bids → Heapq.IsHeap Order.ltb (match_sell_market_loop o bids evs).2.1) ∧
    (∀ e ∈ (match_sell_market_loop o bids evs).2.2, e ∈ evs ∨
      ∃ (pr : ℚ) (sz aid : ℤ), (∃ a ∈ bids, a.id = aid) ∧
        e = Event.trade 0 pr sz aid o.id o.parent_id o.timestamp) := by
  induction o, bids, evs using match_sell_market_loop.induct with
  | case1 o evs =>
    rw [match_sell_market_loop]
    refine ⟨⟨o.size, rfl⟩, ?_, ?_, ?_⟩
    · intro P hP hall a ha
      simp at ha
    · intro _
      exact Heapq.isHeap_nil Order.ltb
    · intro e he
      exact Or.inl he
  | case2 o evs best rest h =>
    rw [match_sell_market_loop, if_pos h]
    refine ⟨⟨o.size, rfl⟩, ?_, ?_, ?_⟩
    · intro P hP hall a ha
      exact hall a ha
    · intro hH
      exact hH
    · intro e he
      exact Or.inl he
  | case3 o evs best rest hle trade ev best1 order1 hpop ih =>
    obtain ⟨ih1, ih2, ih3, ih4⟩ := ih
    rw [match_sell_market_loop, if_neg hle]
    dsimp only
    rw [if_pos (by simp only [trade] at hpop; exact hpop)]
    simp only [trade, ev, best1, order1] at ih1 ih2 ih3 ih4
    refine ⟨?_, ?_, ?_, ?_⟩
    · obtain ⟨sz, hsz⟩ := ih1
      exact ⟨sz, hsz⟩
    · intro P hP hall a ha
      refine ih2 P hP ?_ a ha
      intro a2 ha2
      rcases List.mem_cons.mp (mem_heappopRest Order.ltb ha2) with h3 | h3
      · rw [h3]
        exact hP best _ (hall best (List.mem_cons_self best rest))
      · exact hall a2 (List.mem_cons_of_mem _ h3)
    · intro hH
      apply ih3
      apply isHeap_heappopRest
      exact isHeap_cons_set_head best _ rest hH (fun z => rfl)
    · intro e he
      rcases ih4 e he with h2 | ⟨pr, sz, aid, ⟨a, ha, haid⟩, hesh⟩
      · rcases List.mem_append.mp h2 with h3 | h3
        · exact Or.inl h3
        · have he2 := List.mem_singleton.mp h3
          refine Or.inr ⟨best.get_price, min best.size o.size, best.id,
            ⟨best, List.mem_cons_self best rest, rfl⟩, ?_⟩
          rw [he2]
          rfl
      · rcases List.mem_cons.mp (mem_heappopRest Order.ltb ha) with h3 | h3
        · refine Or.inr ⟨pr, sz, aid, ⟨best, List.mem_cons_self best rest, ?_⟩, hesh⟩
          rw [← haid, h3]
        · exact Or.inr ⟨pr, sz, aid, ⟨a, List.mem_cons_of_mem _ h3, haid⟩, hesh⟩
  | case4 o evs best rest hle trade hpop =>
    rw [match_sell_market_loop, if_neg hle]
    dsimp only
    rw [if_neg (by simp only [trade] at hpop; exact hpop)]
    refine ⟨⟨o.size - trade, rfl⟩, ?_, ?_, ?_⟩
    · intro P hP hall a ha
      rcases List.mem_cons.mp ha with h3 | h3
      · rw [h3]
        exact hP best _ (hall best (List.mem_cons_self best rest))
      · exact hall a (List.mem_cons_of_mem _ h3)
    · intro hH
      exact isHeap_cons_set_head best _ rest hH (fun z => rfl)
    · intro e he
      rcases List.mem_append.mp he with h2 | h2
      · exact Or.inl h2
      · have he2 := List.mem_singleton.mp h2
        refine Or.inr ⟨best.get_price, min best.size o.size, best.id,
          ⟨best, List.mem_cons_self best rest, rfl⟩, ?_⟩
        rw [he2]
        rfl

theorem match_buy_limit_loop_spec (o : Order) (asks : List Order) (evs : List Event) :
    (∃ sz : ℤ, (match_buy_limit_loop o asks evs).1 = { o with size := sz }) ∧
    (∀ P : Order → Prop, (∀ (a : Order) (s : ℤ), P a → P { a with size := s }) →
      (∀ a ∈ asks, P a) → ∀ a ∈ (match_buy_limit_loop o asks evs).2.1, P a) ∧
    (Heapq.IsHeap Order.ltb asks → Heapq.IsHeap Order.ltb (match_buy_limit_loop o asks evs).2.1) ∧
    (∀ e ∈ (match_buy_limit_loop o asks evs).2.2, e ∈ evs ∨
      ∃ (pr : ℚ) (sz aid : ℤ), (∃ a ∈ asks, a.id = aid) ∧
        e = Event.trade 0 pr sz aid o.id o.parent_id o.timestamp) := by
  induction o, asks, evs using match_buy_limit_loop.induct with
  | case1 o evs =>
    rw [match_buy_limit_loop]
    refine ⟨⟨o.size, rfl⟩, ?_, ?_, ?_⟩
    · intro P hP hall a ha
      simp at ha
    · intro _
      exact Heapq.isHeap_nil Order.ltb
    · intro e he
      exact Or.inl he
  | case2 o evs best rest h =>
    rw [match_buy_limit_loop, if_pos h]
    refine ⟨⟨o.size, rfl⟩, ?_, ?_, ?_⟩
    · intro P hP hall a ha
      exact hall a ha
    · intro hH
      exact hH
    · intro e he
      exact Or.inl he
  | case3 o evs best rest hle hbr =>
    rw [match_buy_limit_loop, if_neg hle, if_pos hbr]
    refine ⟨⟨o.size, rfl⟩, ?_, ?_, ?_⟩
    · intro P hP hall a ha
      exact hall a ha
    · intro hH
      exact hH
    · intro e he
      exact Or.inl he
  | case4 o evs best rest hle hbr trade ev best1 order1 hpop ih =>
    obtain ⟨ih1, ih2, ih3, ih4⟩ := ih
    rw [match_buy_limit_loop, if_neg hle, if_neg hbr]
    dsimp only
    rw [if_pos (by simp only [trade] at hpop; exact hpop)]
    simp only [trade, ev, best1, order1] at ih1 ih2 ih3 ih4
    refine ⟨?_, ?_, ?_, ?_⟩
    · obtain ⟨sz, hsz⟩ := ih1
      exact ⟨sz, hsz⟩
    · intro P hP hall a ha
      refine ih2 P hP ?_ a ha
      intro a2 ha2
      rcases List.mem_cons.mp (mem_heappopRest Order.ltb ha2) with h3 | h3
      · rw [h3]
        exact hP best _ (hall best (List.mem_cons_self best rest))
      · exact hall a2 (List.mem_cons_of_mem _ h3)
    · intro hH
      apply ih3
      apply isHeap_heappopRest
      exact isHeap_cons_set_head best _ rest hH (fun z => rfl)
    · intro e he
      rcases ih4 e he with h2 | ⟨pr, sz, aid, ⟨a, ha, haid⟩, hesh⟩
      · rcases List.mem_append.mp h2 with h3 | h3
        · exact Or.inl h3
        · have he2 := List.mem_singleton.mp h3
          refine Or.inr ⟨best.get_price, min best.size o.size, best.id,
            ⟨best, List.mem_cons_self best rest, rfl⟩, ?_⟩
          rw [he2]
          rfl
      · rcases List.mem_cons.mp (mem_heappopRest Order.ltb ha) with h3 | h3
        · refine Or.inr ⟨pr, sz, aid, ⟨best, List.mem_cons_self best rest, ?_⟩, hesh⟩
          rw [← haid, h3]
        · exact Or.inr ⟨pr, sz, aid, ⟨a, List.mem_cons_of_mem _ h3, haid⟩, hesh⟩
  | case5 o evs best rest hle hbr trade hpop =>
    rw [match_buy_limit_loop, if_neg hle, if_neg hbr]
    dsimp only
    rw [if_neg (by simp only [trade] at hpop; exact hpop)]
    refine ⟨⟨o.size - trade, rfl⟩, ?_, ?_, ?_⟩
    · intro P hP hall a ha
      rcases List.mem_cons.mp ha with h3 | h3
      · rw [h3]
        exact hP best _ (hall best (List.mem_cons_self best rest))
      · exact hall a (List.mem_cons_of_mem _ h3)
    · intro hH
      exact isHeap_cons_set_head best _ rest hH (fun z => rfl)
    · intro e he
      rcases List.mem_append.mp he with h2 | h2
      · exact Or.inl h2
      · have he2 := List.mem_singleton.mp h2
        refine Or.inr ⟨best.get_price, min best.size o.size, best.id,
          ⟨best, List.mem_cons_self best rest, rfl⟩, ?_⟩
        rw [he2]
        rfl

theorem match_sell_limit_loop_spec (o : Order) (bids : List Order) (evs : List Event) :
    (∃ sz : ℤ, (match_sell_limit_loop o bids evs).1 = { o with size := sz }) ∧
    (∀ P : Order → Prop, (∀ (a : Order) (s : ℤ), P a → P { a with size := s }) →
      (∀ a ∈ bids, P a) → ∀ a ∈ (match_sell_limit_loop o bids evs).2.1, P a) ∧
    (Heapq.IsHeap Order.ltb bids → Heapq.IsHeap Order.ltb (match_sell_limit_loop o bids evs).2.1) ∧
    (∀ e ∈ (match_sell_limit_loop o bids evs).2.2, e ∈ evs ∨
      ∃ (pr : ℚ) (sz aid : ℤ), (∃ a ∈ bids, a.id = aid) ∧
        e = Event.trade 0 pr sz aid o.id o.parent_id o.timestamp) := by
  induction o, bids, evs using match_sell_limit_loop.induct with
  | case1 o evs =>
    rw [match_sell_limit_loop]
    refine ⟨⟨o.size, rfl⟩, ?_, ?_, ?_⟩
    · intro P hP hall a ha
      simp at ha
    · intro _
      exact Heapq.isHeap_nil Order.ltb
    · intro e he
      exact Or.inl he
  | case2 o evs best rest h =>
    rw [match_sell_limit_loop, if_pos h]
    refine ⟨⟨o.size, rfl⟩, ?_, ?_, ?_⟩
    · intro P hP hall a ha
      exact hall a ha
    · intro hH
      exact hH
    · intro e he
      exact Or.inl he
  | case3 o evs best rest hle hbr =>
    rw [match_sell_limit_loop, if_neg hle, if_pos hbr]
    refine ⟨⟨o.size, rfl⟩, ?_, ?_, ?_⟩
    · intro P hP hall a ha
      exact hall a ha
    · intro hH
      exact hH
    · intro e he
      exact Or.inl he
  | case4 o evs best rest hle hbr trade ev best1 order1 hpop ih =>
    obtain ⟨ih1, ih2, ih3, ih4⟩ := ih
    rw [match_sell_limit_loop, if_neg hle, if_neg hbr]
    dsimp only
    rw [if_pos (by simp only [trade] at hpop; exact hpop)]
    simp only [trade, ev, best1, order1] at ih1 ih2 ih3 ih4
    refine ⟨?_, ?_, ?_, ?_⟩
    · obtain ⟨sz, hsz⟩ := ih1
      exact ⟨sz, hsz⟩
    · intro P hP hall a ha
      refine ih2 P hP ?_ a ha
      intro a2 ha2
      rcases List.mem_cons.mp (mem_heappopRest Order.ltb ha2) with h3 | h3
      · rw [h3]
        exact hP best _ (hall best (List.mem_cons_self best rest))
      · exact hall a2 (List.mem_cons_of_mem _ h3)
    · intro hH
      apply ih3
      apply isHeap_heappopRest
      exact isHeap_cons_set_head best _ rest hH (fun z => rfl)
    · intro e he
      rcases ih4 e he with h2 | ⟨pr, sz, aid, ⟨a, ha, haid⟩, hesh⟩
      · rcases List.mem_append.mp h2 with h3 | h3
        · exact Or.inl h3
        · have he2 := List.mem_singleton.mp h3
          refine Or.inr ⟨best.get_price, min best.size o.size, best.id,
            ⟨best, List.mem_cons_self best rest, rfl⟩, ?_⟩
          rw [he2]
          rfl
      · rcases List.mem_cons.mp (mem_heappopRest Order.ltb ha) with h3 | h3
        · refine Or.inr ⟨pr, sz, aid, ⟨best, List.mem_cons_self best rest, ?_⟩, hesh⟩
          rw [← haid, h3]
        · exact Or.inr ⟨pr, sz, aid, ⟨a, List.mem_cons_of_mem _ h3, haid⟩, hesh⟩
  | case5 o evs best rest hle hbr trade hpop =>
    rw [match_sell_limit_loop, if_neg hle, if_neg hbr]
    dsimp only
    rw [if_neg (by simp only [trade] at hpop; exact hpop)]
    refine ⟨⟨o.size - trade, rfl⟩, ?_, ?_, ?_⟩
    · intro P hP hall a ha
      rcases List.mem_cons.mp ha with h3 | h3
      · rw [h3]
        exact hP best _ (hall best (List.mem_cons_self best rest))
      · exact hall a (List.mem_cons_of_mem _ h3)
    · intro hH
      exact isHeap_cons_set_head best _ rest hH (fun z => rfl)
    · intro e he
      rcases List.mem_append.mp he with h2 | h2
      · exact Or.inl h2
      · have he2 := List.mem_singleton.mp h2
        refine Or.inr ⟨best.get_price, min best.size o.size, best.id,
          ⟨best, List.mem_cons_self best rest, rfl⟩, ?_⟩
        rw [he2]
        rfl

/-! ## Book invariant preservation -/

theorem add_order_inv (b : LimitOrderBook) (o : Order) (hInv : BookInv b) :
    BookInv (b.add_order o).1 ∧
    (∀ x ∈ (b.add_order o).1.bid_orders, x ∈ b.bid_orders ∨ x = o) ∧
    (∀ x ∈ (b.add_order o).1.ask_orders, x ∈ b.ask_orders ∨ x = o) := by
  obtain ⟨hb, ha, hwb, hwa⟩ := hInv
  unfold LimitOrderBook.add_order
  by_cases h1 : o.get_price = 0 ∧ o.type = OrderType.limit
  · rw [if_pos h1]
    exact ⟨⟨hb, ha, hwb, hwa⟩, fun x hx => Or.inl hx, fun x hx => Or.inl hx⟩
  · rw [if_neg h1]
    by_cases h2 : o.type ≠ OrderType.limit
    · rw [if_pos h2]
      exact ⟨⟨hb, ha, hwb, hwa⟩, fun x hx => Or.inl hx, fun x hx => Or.inl hx⟩
    · rw [if_neg h2]
      push_neg at h2
      have hp0 : o.get_price ≠ 0 := fun hc => h1 ⟨hc, h2⟩
      cases hside : o.side with
      | buy =>
        dsimp only
        refine ⟨⟨?_, ha, ?_, hwa⟩, ?_, fun x hx => Or.inl hx⟩
        · exact isHeap_heappush_order b.bid_orders o hb
        · intro x hx
          rcases mem_heappush Order.ltb hx with h3 | h3
          · exact hwb x h3
          · rw [h3]
            exact ⟨hside, h2, hp0⟩
        · intro x hx
          exact mem_heappush Order.ltb hx
      | sell =>
        dsimp only
        refine ⟨⟨hb, ?_, hwb, ?_⟩, fun x hx => Or.inl hx, ?_⟩
        · exact isHeap_heappush_order b.ask_orders o ha
        · intro x hx
          rcases mem_heappush Order.ltb hx with h3 | h3
          · exact hwa x h3
          · rw [h3]
            exact ⟨hside, h2, hp0⟩
        · intro x hx
          exact mem_heappush Order.ltb hx

theorem match_market_order_inv (b : LimitOrderBook) (o : Order) (hInv : BookInv b) :
    BookInv (b.match_market_order o).1 := by
  obtain ⟨hb, ha, hwb, hwa⟩ := hInv
  unfold LimitOrderBook.match_market_order
  by_cases hc : o.type = OrderType.cancel
  · rw [if_pos hc]
    exact ⟨hb, ha, hwb, hwa⟩
  · rw [if_neg hc]
    cases hside : o.side with
    | buy =>
      dsimp only
      obtain ⟨_, hmem, hheap, _⟩ := match_buy_market_loop_spec o b.ask_orders []
      exact ⟨hb, hheap ha, hwb,
        hmem (WF OrderSide.sell) (fun a s h => WF_size_irrel OrderSide.sell a s h) hwa⟩
    | sell =>
      dsimp only
      obtain ⟨_, hmem, hheap, _⟩ := match_sell_market_loop_spec o b.bid_orders []
      exact ⟨hheap hb, ha,
        hmem (WF OrderSide.buy) (fun a s h => WF_size_irrel OrderSide.buy a s h) hwb, hwa⟩

theorem match_limit_order_inv (b : LimitOrderBook) (o : Order) (hInv : BookInv b) :
    BookInv (b.match_limit_order o).1 := by
  obtain ⟨hb, ha, hwb, hwa⟩ := hInv
  unfold LimitOrderBook.match_limit_order
  by_cases hp : o.get_price = 0
  · rw [if_pos hp]
    exact ⟨hb, ha, hwb, hwa⟩
  · rw [if_neg hp]
    by_cases hc : o.type = OrderType.cancel
    · rw [if_pos hc]
      exact ⟨hb, ha, hwb, hwa⟩
    · rw [if_neg hc]
      cases hside : o.side with
      | buy =>
        dsimp only
        obtain ⟨_, hmem, hheap, _⟩ :=
          match_buy_limit_loop_spec
            { o with side := OrderSide.buy,
                     price := o.price.map (fun p => round_to_tick p b.tick_size) }
            b.ask_orders []
        split
        · refine (add_order_inv
            { b with ask_orders := (match_buy_limit_loop
                { o with side := OrderSide.buy,
                         price := o.price.map (fun p => round_to_tick p b.tick_size) }
                b.ask_orders []).2.1 } _ ⟨hb, hheap ha, hwb, ?_⟩).1
          exact hmem (WF OrderSide.sell) (fun a s h => WF_size_irrel OrderSide.sell a s h) hwa
        · exact ⟨hb, hheap ha, hwb,
            hmem (WF OrderSide.sell) (fun a s h => WF_size_irrel OrderSide.sell a s h) hwa⟩
      | sell =>
        dsimp only
        obtain ⟨_, hmem, hheap, _⟩ :=
          match_sell_limit_loop_spec
            { o with side := OrderSide.sell,
                     price := o.price.map (fun p => round_to_tick p b.tick_size) }
            b.bid_orders []
        split
        · refine (add_order_inv
            { b with bid_orders := (match_sell_limit_loop
                { o with side := OrderSide.sell,
                         price := o.price.map (fun p => round_to_tick p b.tick_size) }
                b.bid_orders []).2.1 } _ ⟨hheap hb, ha, ?_, hwa⟩).1
          exact hmem (WF OrderSide.buy) (fun a s h => WF_size_irrel OrderSide.buy a s h) hwb
        · exact ⟨hheap hb, ha,
            hmem (WF OrderSide.buy) (fun a s h => WF_size_irrel OrderSide.buy a s h) hwb, hwa⟩

theorem cancel_order_inv (b : LimitOrderBook) (oid : ℤ) (now : ℕ) (hInv : BookInv b) :
    BookInv (b.cancel_order oid now).1 := by
  obtain ⟨hb, ha, hwb, hwa⟩ := hInv
  unfold LimitOrderBook.cancel_order
  cases h1 : b.ask_orders.findIdx? (fun x => x.id == oid) with
  | some i =>
    dsimp only
    refine ⟨hb, isHeap_heapify_order _, hwb, ?_⟩
    intro x hx
    exact hwa x (List.mem_of_mem_eraseIdx (mem_heapify Order.ltb hx))
  | none =>
    cases h2 : b.bid_orders.findIdx? (fun x => x.id == oid) with
    | some i =>
      dsimp only
      refine ⟨isHeap_heapify_order _, ha, ?_, hwa⟩
      intro x hx
      exact hwb x (List.mem_of_mem_eraseIdx (mem_heapify Order.ltb hx))
    | none =>
      exact ⟨hb, ha, hwb, hwa⟩

theorem process_order_inv (b : LimitOrderBook) (o : Order) (now : ℕ) (hInv : BookInv b) :
    BookInv (b.process_order o now).1 := by
  unfold LimitOrderBook.process_order
  cases o.type with
  | cancel => exact cancel_order_inv b o.id now hInv
  | market => exact match_market_order_inv b o hInv
  | limit => exact match_limit_order_inv b o hInv

/-! ## Price-time priority -/

theorem get_price_buy {o : Order} (hWF : WF OrderSide.buy o) : o.get_price = -o.priceVal := by
  obtain ⟨hs, ht, hp⟩ := hWF
  by_cases hid : o.id = -1
  · exact absurd (by simp [Order.get_price, hid]) hp
  cases hpr : o.price with
  | none => exact absurd (by simp [Order.get_price, hid, hpr]) hp
  | some p =>
    by_cases hp0 : p = 0
    · exact absurd (by simp [Order.get_price, hid, hpr, hp0]) hp
    · simp [Order.get_price, Order.priceVal, hid, hpr, hp0, hs]

theorem get_price_sell {o : Order} (hWF : WF OrderSide.sell o) : o.get_price = o.priceVal := by
  obtain ⟨hs, ht, hp⟩ := hWF
  by_cases hid : o.id = -1
  · exact absurd (by simp [Order.get_price, hid]) hp
  cases hpr : o.price with
  | none => exact absurd (by simp [Order.get_price, hid, hpr]) hp
  | some p =>
    by_cases hp0 : p = 0
    · exact absurd (by simp [Order.get_price, hid, hpr, hp0]) hp
    · simp [Order.get_price, Order.priceVal, hid, hpr, hp0, hs]

/-- Price-time priority between two resting bids: the priority-superior bid
has the strictly higher price, or the same price and the earlier (or equal)
timestamp. -/
def bidPriority (x y : Order) : Prop :=
  x.get_price > y.get_price ∨ (x.get_price = y.get_price ∧ x.timestamp ≤ y.timestamp)

/-- Price-time priority between two resting asks. -/
def askPriority (x y : Order) : Prop :=
  x.get_price < y.get_price ∨ (x.get_price = y.get_price ∧ x.timestamp ≤ y.timestamp)

theorem le_imp_bidPriority {x y : Order} (hx : WF OrderSide.buy x) (hy : WF OrderSide.buy y)
    (h : Order.ltb y x = false) : bidPriority x y := by
  rw [Bool.eq_false_iff] at h
  have h2 : ¬ (y.priceVal < x.priceVal ∨ (y.priceVal = x.priceVal ∧ y.timestamp < x.timestamp)) :=
    fun hc => h ((ltb_iff y x).mpr hc)
  push_neg at h2
  obtain ⟨h3, h4⟩ := h2
  unfold bidPriority
  rcases lt_or_eq_of_le h3 with h5 | h5
  · left
    rw [get_price_buy hx, get_price_buy hy]
    linarith
  · right
    constructor
    · rw [get_price_buy hx, get_price_buy hy, h5]
    · exact h4 h5.symm

theorem le_imp_askPriority {x y : Order} (hx : WF OrderSide.sell x) (hy : WF OrderSide.sell y)
    (h : Order.ltb y x = false) : askPriority x y := by
  rw [Bool.eq_false_iff] at h
  have h2 : ¬ (y.priceVal < x.priceVal ∨ (y.priceVal = x.priceVal ∧ y.timestamp < x.timestamp)) :=
    fun hc => h ((ltb_iff y x).mpr hc)
  push_neg at h2
  obtain ⟨h3, h4⟩ := h2
  unfold askPriority
  rcases lt_or_eq_of_le h3 with h5 | h5
  · left
    rw [get_price_sell hx, get_price_sell hy]
    exact h5
  · right
    constructor
    · rw [get_price_sell hx, get_price_sell hy, h5]
    · exact h4 h5.symm

theorem bookInv_empty (t : ℚ) :
    BookInv { bid_orders := [], ask_orders := [], tick_size := t } := by
  refine ⟨Heapq.isHeap_nil _, Heapq.isHeap_nil _, ?_, ?_⟩ <;> intro o ho <;> simp at ho

/-- C4: after every `process_order` call on a book satisfying the book
invariant, the invariant still holds and the resting orders of each side,
listed in heap-pop (priority) order, satisfy price-time priority: any bid
priority-above another has a strictly higher price or an equal price and an
earlier-or-equal timestamp, and symmetrically for asks with lower prices
first.  Matching therefore consumes same-priced resting orders in FIFO
order. -/
theorem process_order_price_time_priority (b : LimitOrderBook) (o : Order) (now : ℕ)
    (hInv : BookInv b) :
    BookInv (b.process_order o now).1 ∧
    (Heapq.popAll Order.ltb (b.process_order o now).1.bid_orders).Pairwise bidPriority ∧
    (Heapq.popAll Order.ltb (b.process_order o now).1.ask_orders).Pairwise askPriority := by
  obtain ⟨hb2, ha2, hwb, hwa⟩ := process_order_inv b o now hInv
  refine ⟨⟨hb2, ha2, hwb, hwa⟩, ?_, ?_⟩
  · have hp := Heapq.popAll_pairwise Order.ltb ltb_asymm ltb_trans ltb_le_trans _ hb2
    refine hp.imp_of_mem ?_
    intro x y hx hy hxy
    exact le_imp_bidPriority (hwb x (Heapq.popAll_mem Order.ltb hx))
      (hwb y (Heapq.popAll_mem Order.ltb hy)) hxy
  · have hp := Heapq.popAll_pairwise Order.ltb ltb_asymm ltb_trans ltb_le_trans _ ha2
    refine hp.imp_of_mem ?_
    intro x y hx hy hxy
    exact le_imp_askPriority (hwa x (Heapq.popAll_mem Order.ltb hx))
      (hwa y (Heapq.popAll_mem Order.ltb hy)) hxy

theorem process_order_price_time_priority_witness :
    BookInv { bid_orders := [], ask_orders := [], tick_size := (1 : ℚ) } ∧
    (BookInv (LimitOrderBook.process_order
        { bid_orders := [], ask_orders := [], tick_size := (1 : ℚ) }
        (Order.make OrderSide.buy (some 10) 5 OrderType.limit (some 2) none 2 0 1) 0).1 ∧
      (Heapq.popAll Order.ltb (LimitOrderBook.process_order
        { bid_orders := [], ask_orders := [], tick_size := (1 : ℚ) }
        (Order.make OrderSide.buy (some 10) 5 OrderType.limit (some 2) none 2 0 1) 0).1.bid_orders).Pairwise
        bidPriority ∧
      (Heapq.popAll Order.ltb (LimitOrderBook.process_order
        { bid_orders := [], ask_orders := [], tick_size := (1 : ℚ) }
        (Order.make OrderSide.buy (some 10) 5 OrderType.limit (some 2) none 2 0 1) 0).1.ask_orders).Pairwise
        askPriority) :=
  ⟨bookInv_empty 1, process_order_price_time_priority _ _ 0 (bookInv_empty 1)⟩

/-! ## Cancellation -/

theorem add_order_guard (b : LimitOrderBook) (o : Order) (X : ℤ) (hid : o.id ≠ X)
    (ha : ∀ a ∈ b.ask_orders, a.id ≠ X) (hb : ∀ a ∈ b.bid_orders, a.id ≠ X) :
    (∀ a ∈ (b.add_order o).1.ask_orders, a.id ≠ X) ∧
    (∀ a ∈ (b.add_order o).1.bid_orders, a.id ≠ X) ∧
    (∀ e ∈ (b.add_order o).2.toList, NoTradeNaming X e) := by
  unfold LimitOrderBook.add_order
  by_cases h1 : o.get_price = 0 ∧ o.type = OrderType.limit
  · rw [if_pos h1]
    exact ⟨ha, hb, fun e he => by simp at he⟩
  · rw [if_neg h1]
    by_cases h2 : o.type ≠ OrderType.limit
    · rw [if_pos h2]
      exact ⟨ha, hb, fun e he => by simp at he⟩
    · rw [if_neg h2]
      cases hside : o.side with
      | buy =>
        dsimp only
        refine ⟨ha, ?_, ?_⟩
        · intro a haM
          rcases mem_heappush Order.ltb haM with h3 | h3
          · exact hb a h3
          · rw [h3]
            exact hid
        · intro e he
          simp at he
          rw [he]
          exact trivial
      | sell =>
        dsimp only
        refine ⟨?_, hb, ?_⟩
        · intro a haM
          rcases mem_heappush Order.ltb haM with h3 | h3
          · exact ha a h3
          · rw [h3]
            exact hid
        · intro e he
          simp at he
          rw [he]
          exact trivial

theorem match_market_order_guard (b : LimitOrderBook) (o : Order) (X : ℤ) (hid : o.id ≠ X)
    (ha : ∀ a ∈ b.ask_orders, a.id ≠ X) (hb : ∀ a ∈ b.bid_orders, a.id ≠ X) :
    (∀ a ∈ (b.match_market_order o).1.ask_orders, a.id ≠ X) ∧
    (∀ a ∈ (b.match_market_order o).1.bid_orders, a.id ≠ X) ∧
    (∀ e ∈ (b.match_market_order o).2, NoTradeNaming X e) := by
  unfold LimitOrderBook.match_market_order
  by_cases hc : o.type = OrderType.cancel
  · rw [if_pos hc]
    exact ⟨ha, hb, fun e he => by simp at he⟩
  · rw [if_neg hc]
    cases hside : o.side with
    | buy =>
      dsimp only
      obtain ⟨_, hmem, _, hev⟩ := match_buy_market_loop_spec o b.ask_orders []
      refine ⟨hmem (fun a => a.id ≠ X) (fun a s h => h) ha, hb, ?_⟩
      intro e he
      rcases hev e he with h0 | ⟨pr, sz, aid, ⟨a2, ha2, ha2id⟩, heq⟩
      · simp at h0
      · rw [heq]
        exact ⟨hid, fun h3 => ha a2 ha2 (ha2id.trans h3)⟩
    | sell =>
      dsimp only
      obtain ⟨_, hmem, _, hev⟩ := match_sell_market_loop_spec o b.bid_orders []
      refine ⟨ha, hmem (fun a => a.id ≠ X) (fun a s h => h) hb, ?_⟩
      intro e he
      rcases hev e he with h0 | ⟨pr, sz, aid, ⟨a2, ha2, ha2id⟩, heq⟩
      · simp at h0
      · rw [heq]
        exact ⟨fun h3 => hb a2 ha2 (ha2id.trans h3), hid⟩

theorem match_limit_order_guard (b : LimitOrderBook) (o : Order) (X : ℤ) (hid : o.id ≠ X)
    (ha : ∀ a ∈ b.ask_orders, a.id ≠ X) (hb : ∀ a ∈ b.bid_orders, a.id ≠ X) :
    (∀ a ∈ (b.match_limit_order o).1.ask_orders, a.id ≠ X) ∧
    (∀ a ∈ (b.match_limit_order o).1.bid_orders, a.id ≠ X) ∧
    (∀ e ∈ (b.match_limit_order o).2, NoTradeNaming X e) := by
  unfold LimitOrderBook.match_limit_order
  by_cases hp : o.get_price = 0
  · rw [if_pos hp]
    exact ⟨ha, hb, fun e he => by simp at he⟩
  · rw [if_neg hp]
    by_cases hc : o.type = OrderType.cancel
    · rw [if_pos hc]
      exact ⟨ha, hb, fun e he => by simp at he⟩
    · rw [if_neg hc]
      cases hside : o.side with
      | buy =>
        dsimp only
        obtain ⟨⟨sz, hsz⟩, hmem, _, hev⟩ :=
          match_buy_limit_loop_spec
            { o with side := OrderSide.buy,
                     price := o.price.map (fun p => round_to_tick p b.tick_size) }
            b.ask_orders []
        have hA : ∀ a ∈ (match_buy_limit_loop
            { o with side := OrderSide.buy,
                     price := o.price.map (fun p => round_to_tick p b.tick_size) }
            b.ask_orders []).2.1, a.id ≠ X :=
          hmem (fun a => a.id ≠ X) (fun a s h => h) ha
        have hE : ∀ e ∈ (match_buy_limit_loop
            { o with side := OrderSide.buy,
                     price := o.price.map (fun p => round_to_tick p b.tick_size) }
            b.ask_orders []).2.2, NoTradeNaming X e := by
          intro e he
          rcases hev e he with h0 | ⟨pr, s2, aid, ⟨a2, ha2, ha2id⟩, heq⟩
          · simp at h0
          · rw [heq]
            exact ⟨fun h3 => ha a2 ha2 (ha2id.trans h3), hid⟩
        have hid1 : (match_buy_limit_loop
            { o with side := OrderSide.buy,
                     price := o.price.map (fun p => round_to_tick p b.tick_size) }
            b.ask_orders []).1.id ≠ X := by
          rw [hsz]
          exact hid
        split
        · obtain ⟨hga, hgb, hge⟩ := add_order_guard
            { b with ask_orders := (match_buy_limit_loop
                { o with side := OrderSide.buy,
                         price := o.price.map (fun p => round_to_tick p b.tick_size) }
                b.ask_orders []).2.1 }
            (match_buy_limit_loop
                { o with side := OrderSide.buy,
                         price := o.price.map (fun p => round_to_tick p b.tick_size) }
                b.ask_orders []).1 X hid1 hA hb
          refine ⟨hga, hgb, ?_⟩
          intro e he
          rcases List.mem_append.mp he with h4 | h4
          · exact hE e h4
          · exact hge e h4
        · exact ⟨hA, hb, hE⟩
      | sell =>
        dsimp only
        obtain ⟨⟨sz, hsz⟩, hmem, _, hev⟩ :=
          match_sell_limit_loop_spec
            { o with side := OrderSide.sell,
                     price := o.price.map (fun p => round_to_tick p b.tick_size) }
            b.bid_orders []
        have hB : ∀ a ∈ (match_sell_limit_loop
            { o with side := OrderSide.sell,
                     price := o.price.map (fun p => round_to_tick p b.tick_size) }
            b.bid_orders []).2.1, a.id ≠ X :=
          hmem (fun a => a.id ≠ X) (fun a s h => h) hb
        have hE : ∀ e ∈ (match_sell_limit_loop
            { o with side := OrderSide.sell,
                     price := o.price.map (fun p => round_to_tick p b.tick_size) }
            b.bid_orders []).2.2, NoTradeNaming X e := by
          intro e he
          rcases hev e he with h0 | ⟨pr, s2, aid, ⟨a2, ha2, ha2id⟩, heq⟩
          · simp at h0
          · rw [heq]
            exact ⟨fun h3 => hb a2 ha2 (ha2id.trans h3), hid⟩
        have hid1 : (match_sell_limit_loop
            { o with side := OrderSide.sell,
                     price := o.price.map (fun p => round_to_tick p b.tick_size) }
            b.bid_orders []).1.id ≠ X := by
          rw [hsz]
          exact hid
        split
        · obtain ⟨hga, hgb, hge⟩ := add_order_guard
            { b with bid_orders := (match_sell_limit_loop
                { o with side := OrderSide.sell,
                         price := o.price.map (fun p => round_to_tick p b.tick_size) }
                b.bid_orders []).2.1 }
            (match_sell_limit_loop
                { o with side := OrderSide.sell,
                         price := o.price.map (fun p => round_to_tick p b.tick_size) }
                b.bid_orders []).1 X hid1 ha hB
          refine ⟨hga, hgb, ?_⟩
          intro e he
          rcases List.mem_append.mp he with h4 | h4
          · exact hE e h4
          · exact hge e h4
        · exact ⟨ha, hB, hE⟩

theorem cancel_order_guard (b : LimitOrderBook) (oid : ℤ) (now : ℕ) (X : ℤ)
    (ha : ∀ a ∈ b.ask_orders, a.id ≠ X) (hb : ∀ a ∈ b.bid_orders, a.id ≠ X) :
    (∀ a ∈ (b.cancel_order oid now).1.ask_orders, a.id ≠ X) ∧
    (∀ a ∈ (b.cancel_order oid now).1.bid_orders, a.id ≠ X) ∧
    (∀ e ∈ (b.cancel_order oid now).2, NoTradeNaming X e) := by
  unfold LimitOrderBook.cancel_order
  cases h1 : b.ask_orders.findIdx? (fun x => x.id == oid) with
  | some i =>
    dsimp only
    refine ⟨?_, hb, ?_⟩
    · intro a haM
      exact ha a (List.mem_of_mem_eraseIdx (mem_heapify Order.ltb haM))
    · intro e he
      simp at he
      rw [he]
      exact trivial
  | none =>
    cases h2 : b.bid_orders.findIdx? (fun x => x.id == oid) with
    | some i =>
      dsimp only
      refine ⟨ha, ?_, ?_⟩
      · intro a haM
        exact hb a (List.mem_of_mem_eraseIdx (mem_heapify Order.ltb haM))
      · intro e he
        simp at he
        rw [he]
        exact trivial
    | none =>
      exact ⟨ha, hb, fun e he => by simp at he⟩

theorem process_order_guard (b : LimitOrderBook) (o : Order) (now : ℕ) (X : ℤ)
    (hid : o.id ≠ X)
    (ha : ∀ a ∈ b.ask_orders, a.id ≠ X) (hb : ∀ a ∈ b.bid_orders, a.id ≠ X) :
    (∀ a ∈ (b.process_order o now).1.ask_orders, a.id ≠ X) ∧
    (∀ a ∈ (b.process_order o now).1.bid_orders, a.id ≠ X) ∧
    (∀ e ∈ (b.process_order o now).2, NoTradeNaming X e) := by
  unfold LimitOrderBook.process_order
  cases o.type with
  | cancel => exact cancel_order_guard b o.id now X ha hb
  | market => exact match_market_order_guard b o X hid ha hb
  | limit => exact match_limit_order_guard b o X hid ha hb

theorem process_seq_guard (X : ℤ) (l : List (Order × ℕ)) :
    ∀ b : LimitOrderBook, (∀ p ∈ l, p.1.id ≠ X) →
    (∀ a ∈ b.ask_orders, a.id ≠ X) → (∀ a ∈ b.bid_orders, a.id ≠ X) →
    (∀ a ∈ (b.process_seq l).1.ask_orders, a.id ≠ X) ∧
    (∀ a ∈ (b.process_seq l).1.bid_orders, a.id ≠ X) ∧
    (∀ e ∈ (b.process_seq l).2, NoTradeNaming X e) := by
  induction l with
  | nil =>
    intro b hl ha hb
    rw [LimitOrderBook.process_seq]
    exact ⟨ha, hb, fun e he => by simp at he⟩
  | cons p rest ih =>
    intro b hl ha hb
    rw [LimitOrderBook.process_seq]
    dsimp only
    obtain ⟨h1, h2, h3⟩ :=
      process_order_guard b p.1 p.2 X (hl p (List.mem_cons_self p rest)) ha hb
    obtain ⟨g1, g2, g3⟩ := ih (b.process_order p.1 p.2).1
      (fun q hq => hl q (List.mem_cons_of_mem p hq)) h1 h2
    refine ⟨g1, g2, ?_⟩
    intro e he
    rcases List.mem_append.mp he with h4 | h4
    · exact h3 e h4
    · exact g3 e h4

theorem not_mem_order_ids_iff (b : LimitOrderBook) (X : ℤ) :
    X ∉ b.get_all_order_ids ↔
      (∀ a ∈ b.ask_orders, a.id ≠ X) ∧ (∀ a ∈ b.bid_orders, a.id ≠ X) := by
  unfold LimitOrderBook.get_all_order_ids
  constructor
  · intro h
    constructor
    · intro a ha hc
      apply h
      rw [List.mem_map]
      exact ⟨a, List.mem_append_left _ ha, hc⟩
    · intro a ha hc
      apply h
      rw [List.mem_map]
      exact ⟨a, List.mem_append_right _ ha, hc⟩
  · rintro ⟨h1, h2⟩ hmem
    rw [List.mem_map] at hmem
    obtain ⟨a, haMem, haid⟩ := hmem
    rcases List.mem_append.mp haMem with h3 | h3
    · exact h1 a h3 haid
    · exact h2 a h3 haid

theorem create_cancel_order_id (X : ℤ) (now : ℕ) :
    (create_cancel_order X now).id = X := by
  unfold create_cancel_order Order.make
  dsimp only
  by_cases h : X = 0
  · rw [if_pos h, h]
  · rw [if_neg h]

theorem erase_found_no_id (l : List Order) (X : ℤ) (j : ℕ) (e : Order)
    (he : l[j]? = some e) (hnd : (l.map Order.id).Nodup) (heid : e.id = X) :
    ∀ a ∈ l.eraseIdx j, a.id ≠ X := by
  have hperm := Heapq.perm_cons_eraseIdx l j e he
  have hmap : (l.map Order.id).Perm (e.id :: (l.eraseIdx j).map Order.id) := by
    have h2 := hperm.map Order.id
    simpa using h2
  have hnd2 : (e.id :: (l.eraseIdx j).map Order.id).Nodup := hmap.nodup_iff.mp hnd
  have hnotin : e.id ∉ (l.eraseIdx j).map Order.id := (List.nodup_cons.mp hnd2).1
  intro a ha hc
  apply hnotin
  rw [List.mem_map]
  exact ⟨a, ha, hc.trans heid.symm⟩

/-- C5: on a book whose resting order ids are pairwise distinct, processing
a CANCEL for an id `X` that is resting removes that order (`X` is no longer
among `get_all_order_ids`), publishes exactly one cancel event, and no
trade event published by any later sequence of processed orders whose own
ids differ from `X` names `X` on either side; processing a CANCEL for an
unknown id publishes no event and leaves the book unchanged. -/
theorem cancel_removes_and_silences (b : LimitOrderBook) (X : ℤ) (now : ℕ)
    (hnd : b.get_all_order_ids.Nodup)
    (rest : List (Order × ℕ)) (hrest : ∀ p ∈ rest, p.1.id ≠ X) :
    (X ∈ b.get_all_order_ids →
      X ∉ (b.process_order (create_cancel_order X now) now).1.get_all_order_ids ∧
      (b.process_order (create_cancel_order X now) now).2 = [Event.cancelOrder X now] ∧
      ∀ e ∈ ((b.process_order (create_cancel_order X now) now).1.process_seq rest).2,
        NoTradeNaming X e) ∧
    (X ∉ b.get_all_order_ids →
      (b.process_order (create_cancel_order X now) now).1 = b ∧
      (b.process_order (create_cancel_order X now) now).2 = []) := by
  have hco : b.process_order (create_cancel_order X now) now = b.cancel_order X now := by
    show b.cancel_order (create_cancel_order X now).id now = b.cancel_order X now
    rw [create_cancel_order_id]
  rw [hco]
  have hnd2 : (b.ask_orders.map Order.id ++ b.bid_orders.map Order.id).Nodup := by
    have h5 := hnd
    unfold LimitOrderBook.get_all_order_ids at h5
    rwa [List.map_append] at h5
  obtain ⟨hndA, hndB, hdisj⟩ := List.nodup_append.mp hnd2
  constructor
  · intro hX
    unfold LimitOrderBook.get_all_order_ids at hX
    rw [List.map_append, List.mem_append] at hX
    rcases hX with hXa | hXb
    · obtain ⟨a, haMem, haid⟩ := List.mem_map.mp hXa
      have hex : ∃ x, x ∈ b.ask_orders ∧ (fun o => o.id == X) x = true :=
        ⟨a, haMem, by simp [haid]⟩
      have hfound := List.findIdx?_eq_some_of_exists hex
      obtain ⟨hjlen, hpj, _⟩ := List.findIdx?_eq_some_iff_getElem.mp hfound
      set j := b.ask_orders.findIdx (fun o => o.id == X) with hj
      have hjsome : b.ask_orders[j]? = some (b.ask_orders.getD j default) := by
        rw [List.getElem?_eq_getElem hjlen, List.getD_eq_getElem _ _ hjlen]
      have hjid : (b.ask_orders.getD j default).id = X := by
        rw [List.getD_eq_getElem _ _ hjlen]
        simpa using hpj
      have hA2 : ∀ x ∈ Heapq.heapify Order.ltb (b.ask_orders.eraseIdx j), x.id ≠ X :=
        fun x hx => erase_found_no_id b.ask_orders X j (b.ask_orders.getD j default)
          hjsome hndA hjid x (mem_heapify Order.ltb hx)
      have hB2 : ∀ x ∈ b.bid_orders, x.id ≠ X :=
        fun x hx hc => hdisj hXa (List.mem_map.mpr ⟨x, hx, hc⟩)
      unfold LimitOrderBook.cancel_order
      rw [hfound]
      dsimp only
      refine ⟨?_, ?_, ?_⟩
      · rw [not_mem_order_ids_iff]
        exact ⟨hA2, hB2⟩
      · show [create_cancel_order_event (b.ask_orders.getD j default) now] =
          [Event.cancelOrder X now]
        unfold create_cancel_order_event
        rw [hjid]
      · intro e he
        exact (process_seq_guard X rest
          { b with ask_orders := Heapq.heapify Order.ltb (b.ask_orders.eraseIdx j) }
          hrest hA2 hB2).2.2 e he
    · have hXa2 : X ∉ b.ask_orders.map Order.id := fun hc => hdisj hc hXb
      have hnoneA : b.ask_orders.findIdx? (fun o => o.id == X) = none := by
        rw [List.findIdx?_eq_none_iff]
        intro x hx
        rw [beq_eq_false_iff_ne]
        exact fun hc => hXa2 (List.mem_map.mpr ⟨x, hx, hc⟩)
      obtain ⟨a, haMem, haid⟩ := List.mem_map.mp hXb
      have hex : ∃ x, x ∈ b.bid_orders ∧ (fun o => o.id == X) x = true :=
        ⟨a, haMem, by simp [haid]⟩
      have hfound := List.findIdx?_eq_some_of_exists hex
      obtain ⟨hjlen, hpj, _⟩ := List.findIdx?_eq_some_iff_getElem.mp hfound
      set j := b.bid_orders.findIdx (fun o => o.id == X) with hj
      have hjsome : b.bid_orders[j]? = some (b.bid_orders.getD j default) := by
        rw [List.getElem?_eq_getElem hjlen, List.getD_eq_getElem _ _ hjlen]
      have hjid : (b.bid_orders.getD j default).id = X := by
        rw [List.getD_eq_getElem _ _ hjlen]
        simpa using hpj
      have hA2 : ∀ x ∈ b.ask_orders, x.id ≠ X :=
        fun x hx hc => hXa2 (List.mem_map.mpr ⟨x, hx, hc⟩)
      have hB2 : ∀ x ∈ Heapq.heapify Order.ltb (b.bid_orders.eraseIdx j), x.id ≠ X :=
        fun x hx => erase_found_no_id b.bid_orders X j (b.bid_orders.getD j default)
          hjsome hndB hjid x (mem_heapify Order.ltb hx)
      unfold LimitOrderBook.cancel_order
      rw [hnoneA, hfound]
      dsimp only
      refine ⟨?_, ?_, ?_⟩
      · rw [not_mem_order_ids_iff]
        exact ⟨hA2, hB2⟩
      · show [create_cancel_order_event (b.bid_orders.getD j default) now] =
          [Event.cancelOrder X now]
        unfold create_cancel_order_event
        rw [hjid]
      · intro e he
        exact (process_seq_guard X rest
          { b with bid_orders := Heapq.heapify Order.ltb (b.bid_orders.eraseIdx j) }
          hrest hA2 hB2).2.2 e he
  · intro hX
    rw [not_mem_order_ids_iff] at hX
    obtain ⟨hAn, hBn⟩ := hX
    have hnoneA : b.ask_orders.findIdx? (fun o => o.id == X) = none := by
      rw [List.findIdx?_eq_none_iff]
      intro x hx
      rw [beq_eq_false_iff_ne]
      exact hAn x hx
    have hnoneB : b.bid_orders.findIdx? (fun o => o.id == X) = none := by
      rw [List.findIdx?_eq_none_iff]
      intro x hx
      rw [beq_eq_false_iff_ne]
      exact hBn x hx
    unfold LimitOrderBook.cancel_order
    rw [hnoneA, hnoneB]
    exact ⟨rfl, rfl⟩

theorem cancel_removes_and_silences_witness :
    c5book.get_all_order_ids.Nodup ∧
    (∀ p ∈ ([] : List (Order × ℕ)), p.1.id ≠ 5) ∧
    ((5 ∈ c5book.get_all_order_ids →
      5 ∉ (c5book.process_order (create_cancel_order 5 0) 0).1.get_all_order_ids ∧
      (c5book.process_order (create_cancel_order 5 0) 0).2 = [Event.cancelOrder 5 0] ∧
      ∀ e ∈ ((c5book.process_order (create_cancel_order 5 0) 0).1.process_seq []).2,
        NoTradeNaming 5 e) ∧
    (5 ∉ c5book.get_all_order_ids →
      (c5book.process_order (create_cancel_order 5 0) 0).1 = c5book ∧
      (c5book.process_order (create_cancel_order 5 0) 0).2 = [])) :=
  ⟨by decide, by simp,
    cancel_removes_and_silences c5book 5 0 (by decide) [] (by simp)⟩

theorem add_order_event_shape (b : LimitOrderBook) (o : Order) :
    ∀ e ∈ (b.add_order o).2.toList, e = create_new_order_event o o.timestamp := by
  unfold LimitOrderBook.add_order
  by_cases h1 : o.get_price = 0 ∧ o.type = OrderType.limit
  · rw [if_pos h1]
    intro e he
    simp at he
  · rw [if_neg h1]
    by_cases h2 : o.type ≠ OrderType.limit
    · rw [if_pos h2]
      intro e he
      simp at he
    · rw [if_neg h2]
      cases o.side <;> dsimp only <;> intro e he
      · simp at he
        exact he
      · simp at he
        exact he

/-! ## Trade-event sides (C1) -/

/-- C1: the trade events do not identify the sides as documented.  Every
trade event published while matching an incoming BUY LIMIT order carries
the incoming BUY's id in `sell_order_id` and the id of a consumed resting
ask in `buy_order_id` — the swap of the documented roles: the BUY branch
of `_match_limit_order` passes `(best, order)` positionally into
`create_trade_event(price, size, buy_order, sell_order, ...)`, putting the
resting ask in the buy slot. -/
theorem buy_limit_trade_event_swapped (b : LimitOrderBook) (o : Order)
    (hside : o.side = OrderSide.buy) (ht : o.type = OrderType.limit) (now : ℕ) :
    ∀ e ∈ (b.process_order o now).2, ∀ tid pr sz bid sid pid ts,
      e = Event.trade tid pr sz bid sid pid ts →
      sid = o.id ∧ ∃ a ∈ b.ask_orders, a.id = bid := by
  unfold LimitOrderBook.process_order
  rw [ht]
  dsimp only
  unfold LimitOrderBook.match_limit_order
  by_cases hp : o.get_price = 0
  · rw [if_pos hp]
    intro e he
    simp at he
  · rw [if_neg hp]
    rw [if_neg (show ¬ o.type = OrderType.cancel by
      rw [ht]
      intro hcon
      exact OrderType.noConfusion hcon)]
    rw [hside]
    dsimp only
    obtain ⟨_, _, _, hev⟩ :=
      match_buy_limit_loop_spec
        { o with side := OrderSide.buy,
                 price := o.price.map (fun p => round_to_tick p b.tick_size) }
        b.ask_orders []
    split
    · intro e he tid pr sz bid sid pid ts heq
      rcases List.mem_append.mp he with h4 | h4
      · rcases hev e h4 with h0 | ⟨pr2, s2, aid, ⟨a2, ha2, ha2id⟩, htr⟩
        · simp at h0
        · rw [heq] at htr
          injection htr with g1 g2 g3 g4 g5 g6 g7
          exact ⟨g5, a2, ha2, ha2id.trans g4.symm⟩
      · have h5 := add_order_event_shape _ _ e h4
        rw [heq] at h5
        unfold create_new_order_event at h5
        exact absurd h5 (by simp)
    · intro e he tid pr sz bid sid pid ts heq
      rcases hev e he with h0 | ⟨pr2, s2, aid, ⟨a2, ha2, ha2id⟩, htr⟩
      · simp at h0
      · rw [heq] at htr
        injection htr with g1 g2 g3 g4 g5 g6 g7
        exact ⟨g5, a2, ha2, ha2id.trans g4.symm⟩

theorem buy_limit_trade_event_swapped_witness :
    (c1order.side = OrderSide.buy ∧ c1order.type = OrderType.limit) ∧
    (∀ e ∈ (c1book.process_order c1order 0).2, ∀ tid pr sz bid sid pid ts,
      e = Event.trade tid pr sz bid sid pid ts →
      sid = c1order.id ∧ ∃ a ∈ c1book.ask_orders, a.id = bid) :=
  ⟨⟨rfl, rfl⟩, buy_limit_trade_event_swapped c1book c1order rfl rfl 0⟩

/-! ## Concrete evaluation helpers -/

theorem popAll_nil {α : Type} (lt : α → α → Bool) : Heapq.popAll lt [] = [] := by
  rw [Heapq.popAll]
  rfl

theorem heappush_nil {α : Type} (lt : α → α → Bool) (x : α) :
    Heapq.heappush lt [] x = [x] := by
  rw [Heapq.heappush]
  show Heapq.siftdownAux lt [x] x 0 0 = [x]
  rw [Heapq.siftdownAux]
  rfl

theorem heappush_one {α : Type} (lt : α → α → Bool) (a x : α) :
    Heapq.heappush lt [a] x = if lt x a then [x, a] else [a, x] := by
  rw [Heapq.heappush]
  show Heapq.siftdownAux lt [a, x] x 0 1 = _
  rw [Heapq.siftdownAux]
  show (if lt x a then Heapq.siftdownAux lt [a, a] x 0 0 else [a, x]) = _
  by_cases h : lt x a
  · rw [if_pos h, if_pos h, Heapq.siftdownAux]
    rfl
  · rw [if_neg h, if_neg h]

theorem heappush_two {α : Type} (lt : α → α → Bool) (a b x : α) :
    Heapq.heappush lt [a, b] x = if lt x a then [x, b, a] else [a, b, x] := by
  rw [Heapq.heappush]
  show Heapq.siftdownAux lt [a, b, x] x 0 2 = _
  rw [Heapq.siftdownAux]
  show (if lt x a then Heapq.siftdownAux lt [a, b, a] x 0 0 else [a, b, x]) = _
  by_cases h : lt x a
  · rw [if_pos h, if_pos h, Heapq.siftdownAux]
    rfl
  · rw [if_neg h, if_neg h]

theorem match_buy_limit_loop_nil (o : Order) (evs : List Event) :
    match_buy_limit_loop o [] evs = (o, [], evs) := by
  rw [match_buy_limit_loop]

theorem match_sell_limit_loop_nil (o : Order) (evs : List Event) :
    match_sell_limit_loop o [] evs = (o, [], evs) := by
  rw [match_sell_limit_loop]

/-- Evaluation rule: a BUY limit order processed against a book with no
resting asks matches nothing and is pushed onto the bid heap after its
price is rounded to the tick. -/
theorem process_buy_limit_empty_asks (b : LimitOrderBook) (o : Order) (now : ℕ) (t : ℚ)
    (htick : b.tick_size = t)
    (ha : b.ask_orders = []) (hp : ¬ o.get_price = 0) (hside : o.side = OrderSide.buy)
    (ht : o.type = OrderType.limit) (hsz : 0 < o.size)
    (hp1 : ¬ Order.get_price { o with side := OrderSide.buy,
                                       price := o.price.map (fun p => round_to_tick p t) } = 0) :
    b.process_order o now =
      ({ b with ask_orders := [],
                bid_orders := Heapq.heappush Order.ltb b.bid_orders
                  { o with side := OrderSide.buy,
                           price := o.price.map (fun p => round_to_tick p t) } },
       [create_new_order_event
          { o with side := OrderSide.buy,
                   price := o.price.map (fun p => round_to_tick p t) } o.timestamp]) := by
  unfold LimitOrderBook.process_order
  rw [ht]
  dsimp only
  unfold LimitOrderBook.match_limit_order
  rw [if_neg hp]
  rw [if_neg (show ¬ o.type = OrderType.cancel by
    rw [ht]
    intro hcon
    exact OrderType.noConfusion hcon)]
  rw [htick, hside]
  dsimp only
  rw [ha, match_buy_limit_loop_nil]
  dsimp only
  rw [if_pos hsz]
  unfold LimitOrderBook.add_order
  rw [if_neg (by intro hcon; exact hp1 hcon.1)]
  rw [if_neg (by intro hcon; exact hcon ht)]
  dsimp only
  rw [ht]
  rfl

/-- Evaluation rule: a SELL limit order processed against a book with no
resting bids matches nothing and is pushed onto the ask heap after its
price is rounded to the tick. -/
theorem process_sell_limit_empty_bids (b : LimitOrderBook) (o : Order) (now : ℕ) (t : ℚ)
    (htick : b.tick_size = t)
    (hb : b.bid_orders = []) (hp : ¬ o.get_price = 0) (hside : o.side = OrderSide.sell)
    (ht : o.type = OrderType.limit) (hsz : 0 < o.size)
    (hp1 : ¬ Order.get_price { o with side := OrderSide.sell,
                                       price := o.price.map (fun p => round_to_tick p t) } = 0) :
    b.process_order o now =
      ({ b with bid_orders := [],
                ask_orders := Heapq.heappush Order.ltb b.ask_orders
                  { o with side := OrderSide.sell,
                           price := o.price.map (fun p => round_to_tick p t) } },
       [create_new_order_event
          { o with side := OrderSide.sell,
                   price := o.price.map (fun p => round_to_tick p t) } o.timestamp]) := by
  unfold LimitOrderBook.process_order
  rw [ht]
  dsimp only
  unfold LimitOrderBook.match_limit_order
  rw [if_neg hp]
  rw [if_neg (show ¬ o.type = OrderType.cancel by
    rw [ht]
    intro hcon
    exact OrderType.noConfusion hcon)]
  rw [htick, hside]
  dsimp only
  rw [hb, match_sell_limit_loop_nil]
  dsimp only
  rw [if_pos hsz]
  unfold LimitOrderBook.add_order
  rw [if_neg (by intro hcon; exact hp1 hcon.1)]
  rw [if_neg (by intro hcon; exact hcon ht)]
  dsimp only
  rw [ht]
  rfl

/-- Evaluation rule: a BUY limit order with truthy original price whose
rounded residual has a falsy `get_price()` is silently dropped by
`_add_order` after matching against an empty ask side: no event, and the
bid heap untouched. -/
theorem process_buy_limit_empty_asks_drop (b : LimitOrderBook) (o : Order) (now : ℕ) (t : ℚ)
    (htick : b.tick_size = t)
    (ha : b.ask_orders = []) (hp : ¬ o.get_price = 0) (hside : o.side = OrderSide.buy)
    (ht : o.type = OrderType.limit) (hsz : 0 < o.size)
    (hp1 : Order.get_price { o with side := OrderSide.buy,
                                    price := o.price.map (fun p => round_to_tick p t) } = 0) :
    b.process_order o now = ({ b with ask_orders := [] }, []) := by
  unfold LimitOrderBook.process_order
  rw [ht]
  dsimp only
  unfold LimitOrderBook.match_limit_order
  rw [if_neg hp]
  rw [if_neg (show ¬ o.type = OrderType.cancel by
    rw [ht]
    intro hcon
    exact OrderType.noConfusion hcon)]
  rw [htick, hside]
  dsimp only
  rw [ha, match_buy_limit_loop_nil]
  dsimp only
  rw [if_pos hsz]
  unfold LimitOrderBook.add_order
  rw [if_pos ⟨hp1, ht⟩]
  rfl

/-- Evaluation rule: a SELL limit order with truthy original price whose
rounded residual has a falsy `get_price()` is silently dropped by
`_add_order` after matching against an empty bid side. -/
theorem process_sell_limit_empty_bids_drop (b : LimitOrderBook) (o : Order) (now : ℕ) (t : ℚ)
    (htick : b.tick_size = t)
    (hb : b.bid_orders = []) (hp : ¬ o.get_price = 0) (hside : o.side = OrderSide.sell)
    (ht : o.type = OrderType.limit) (hsz : 0 < o.size)
    (hp1 : Order.get_price { o with side := OrderSide.sell,
                                    price := o.price.map (fun p => round_to_tick p t) } = 0) :
    b.process_order o now = ({ b with bid_orders := [] }, []) := by
  unfold LimitOrderBook.process_order
  rw [ht]
  dsimp only
  unfold LimitOrderBook.match_limit_order
  rw [if_neg hp]
  rw [if_neg (show ¬ o.type = OrderType.cancel by
    rw [ht]
    intro hcon
    exact OrderType.noConfusion hcon)]
  rw [htick, hside]
  dsimp only
  rw [hb, match_sell_limit_loop_nil]
  dsimp only
  rw [if_pos hsz]
  unfold LimitOrderBook.add_order
  rw [if_pos ⟨hp1, ht⟩]
  rfl

theorem book_bid_update_self (b : LimitOrderBook) (hb : b.bid_orders = []) :
    ({ b with bid_orders := [] } : LimitOrderBook) = b := by
  cases b with
  | mk bids asks t =>
    dsimp only at hb
    rw [hb]

theorem book_ask_update_self (b : LimitOrderBook) (ha : b.ask_orders = []) :
    ({ b with ask_orders := [] } : LimitOrderBook) = b := by
  cases b with
  | mk bids asks t =>
    dsimp only at ha
    rw [ha]

theorem book_bid_update_drop (b : LimitOrderBook) (hb : b.bid_orders = []) (X : List Order) :
    ({ b with bid_orders := [], ask_orders := X } : LimitOrderBook) =
      { b with ask_orders := X } := by
  cases b with
  | mk bids asks t =>
    dsimp only at hb
    rw [hb]

theorem book_ask_update_drop (b : LimitOrderBook) (ha : b.ask_orders = []) (X : List Order) :
    ({ b with ask_orders := [], bid_orders := X } : LimitOrderBook) =
      { b with bid_orders := X } := by
  cases b with
  | mk bids asks t =>
    dsimp only at ha
    rw [ha]

/-! ## Size queries (C2) -/

theorem c2book_eq :
    c2book = { bid_orders := [c2o2, c2o1, c2o3], ask_orders := [], tick_size := 1 } := by
  have hv10 : round_to_tick (-10 : ℚ) 1 = -10 := by
    unfold round_to_tick pyRound
    rw [round_eq]
    norm_num
  have hv30 : round_to_tick (-30 : ℚ) 1 = -30 := by
    unfold round_to_tick pyRound
    rw [round_eq]
    norm_num
  have hv20 : round_to_tick (-20 : ℚ) 1 = -20 := by
    unfold round_to_tick pyRound
    rw [round_eq]
    norm_num
  have hr1 : { c2o1 with side := OrderSide.buy, price := c2o1.price.map (fun p => round_to_tick p 1) } = c2o1 := by
    show { c2o1 with side := OrderSide.buy, price := some (round_to_tick (-10) 1) } = c2o1
    rw [hv10]
    rfl
  have hr2 : { c2o2 with side := OrderSide.buy, price := c2o2.price.map (fun p => round_to_tick p 1) } = c2o2 := by
    show { c2o2 with side := OrderSide.buy, price := some (round_to_tick (-30) 1) } = c2o2
    rw [hv30]
    rfl
  have hr3 : { c2o3 with side := OrderSide.buy, price := c2o3.price.map (fun p => round_to_tick p 1) } = c2o3 := by
    show { c2o3 with side := OrderSide.buy, price := some (round_to_tick (-20) 1) } = c2o3
    rw [hv20]
    rfl
  have s1 : emptyBook.process_order c2o1 1 =
      ({ bid_orders := [c2o1], ask_orders := [], tick_size := 1 },
       [create_new_order_event c2o1 c2o1.timestamp]) := by
    rw [process_buy_limit_empty_asks emptyBook c2o1 1 1 rfl rfl (by decide) rfl rfl
      (by decide) (by rw [hr1]; decide)]
    rw [hr1]
    rw [show emptyBook.bid_orders = [] from rfl]
    rw [heappush_nil]
    rfl
  have s2 : LimitOrderBook.process_order
      { bid_orders := [c2o1], ask_orders := [], tick_size := 1 } c2o2 2 =
      ({ bid_orders := [c2o2, c2o1], ask_orders := [], tick_size := 1 },
       [create_new_order_event c2o2 c2o2.timestamp]) := by
    rw [process_buy_limit_empty_asks
      { bid_orders := [c2o1], ask_orders := [], tick_size := 1 } c2o2 2 1 rfl rfl
      (by decide) rfl rfl (by decide) (by rw [hr2]; decide)]
    rw [hr2]
    rw [show ({ bid_orders := [c2o1], ask_orders := [], tick_size := 1 } :
      LimitOrderBook).bid_orders = [c2o1] from rfl]
    rw [heappush_one, if_pos (show Order.ltb c2o2 c2o1 = true by decide)]
  have s3 : LimitOrderBook.process_order
      { bid_orders := [c2o2, c2o1], ask_orders := [], tick_size := 1 } c2o3 3 =
      ({ bid_orders := [c2o2, c2o1, c2o3], ask_orders := [], tick_size := 1 },
       [create_new_order_event c2o3 c2o3.timestamp]) := by
    rw [process_buy_limit_empty_asks
      { bid_orders := [c2o2, c2o1], ask_orders := [], tick_size := 1 } c2o3 3 1 rfl rfl
      (by decide) rfl rfl (by decide) (by rw [hr3]; decide)]
    rw [hr3]
    rw [show ({ bid_orders := [c2o2, c2o1], ask_orders := [], tick_size := 1 } :
      LimitOrderBook).bid_orders = [c2o2, c2o1] from rfl]
    rw [heappush_two, if_neg (show ¬ Order.ltb c2o3 c2o2 = true by decide)]
  show (emptyBook.process_seq [(c2o1, 1), (c2o2, 2), (c2o3, 3)]).1 = _
  simp only [LimitOrderBook.process_seq]
  rw [s1]
  dsimp only
  rw [s2]
  dsimp only
  rw [s3]

/-- C2 counterexample: on the book built by resting bids of (actual)
prices 10, 30, 20 with sizes 1, 2, 4, `get_bid_size(2)` returns 3 — the
sum of the first two entries of the heap's backing array — while the two
bids of highest price-time priority (prices 30 and 20, the only ones with
price at least 20) have sizes summing to 6. -/
theorem get_bid_size_not_priority :
    c2book.get_bid_size (some 2) = 3 ∧
    (c2book.bid_orders.filter (fun o => decide (20 ≤ o.get_price))).length = 2 ∧
    ((c2book.bid_orders.filter (fun o => decide (20 ≤ o.get_price))).map Order.size).sum = 6 := by
  rw [c2book_eq]
  decide

/-- C2 (amended): with the argument omitted, `get_bid_size`/`get_ask_size`
return the sum of the sizes of every resting order of the side
(equivalently, of the whole priority-ordered pop sequence); with an
explicit in-range `levels` they return the sum over the first `levels`
entries of the heap's backing array, which need not be the `levels`
highest-priority orders. -/
theorem get_size_amended (b : LimitOrderBook) (lv : ℤ)
    (h1 : 1 ≤ lv) (h2 : lv ≤ (b.bid_orders.length : ℤ)) :
    b.get_bid_size none = ((Heapq.popAll Order.ltb b.bid_orders).map Order.size).sum ∧
    b.get_ask_size none = ((Heapq.popAll Order.ltb b.ask_orders).map Order.size).sum ∧
    b.get_bid_size (some lv) = ((b.bid_orders.take lv.toNat).map Order.size).sum := by
  refine ⟨?_, ?_, ?_⟩
  · unfold LimitOrderBook.get_bid_size
    simp only [Option.getD_none]
    by_cases h0 : b.bid_orders = []
    · rw [h0, popAll_nil]
      simp
    · have hlen : 0 < b.bid_orders.length := List.length_pos.mpr h0
      rw [if_neg (by push_neg; constructor <;> omega)]
      have htn : ((b.bid_orders.length : ℤ)).toNat = b.bid_orders.length := by omega
      rw [htn, List.take_length]
      exact ((Heapq.popAll_perm Order.ltb b.bid_orders).map Order.size).sum_eq.symm
  · unfold LimitOrderBook.get_ask_size
    simp only [Option.getD_none]
    by_cases h0 : b.ask_orders = []
    · rw [h0, popAll_nil]
      simp
    · have hlen : 0 < b.ask_orders.length := List.length_pos.mpr h0
      rw [if_neg (by push_neg; constructor <;> omega)]
      have htn : ((b.ask_orders.length : ℤ)).toNat = b.ask_orders.length := by omega
      rw [htn, List.take_length]
      exact ((Heapq.popAll_perm Order.ltb b.ask_orders).map Order.size).sum_eq.symm
  · unfold LimitOrderBook.get_bid_size
    simp only [Option.getD_some]
    rw [if_neg (by push_neg; constructor <;> omega)]

theorem get_size_amended_witness :
    (1 ≤ (2 : ℤ) ∧ (2 : ℤ) ≤ (c2book.bid_orders.length : ℤ)) ∧
    (c2book.get_bid_size none =
        ((Heapq.popAll Order.ltb c2book.bid_orders).map Order.size).sum ∧
      c2book.get_ask_size none =
        ((Heapq.popAll Order.ltb c2book.ask_orders).map Order.size).sum ∧
      c2book.get_bid_size (some 2) =
        ((c2book.bid_orders.take (2 : ℤ).toNat).map Order.size).sum) :=
  ⟨⟨by decide, by rw [c2book_eq]; decide⟩,
    get_size_amended c2book 2 (by decide) (by rw [c2book_eq]; decide)⟩

/-! ## Limit-order rejection and rounding (C3) -/

/-- C3 counterexample: a SELL limit order whose price is negative (here
`-5`, already a multiple of the tick) is not rejected: processing it on the
empty book leaves one resting ask and publishes a NewOrder event. -/
theorem negative_price_not_rejected :
    (emptyBook.process_order c3order 0).1.get_ask_depth = 1 ∧
    (emptyBook.process_order c3order 0).2 =
      [Event.newOrder 9 OrderSide.sell 4 (some (-5)) OrderType.limit 1 3] := by
  have hv5 : round_to_tick (-5 : ℚ) 1 = -5 := by
    unfold round_to_tick pyRound
    rw [round_eq]
    norm_num
  have hr : { c3order with side := OrderSide.sell, price := c3order.price.map (fun p => round_to_tick p 1) } = c3order := by
    show { c3order with side := OrderSide.sell, price := some (round_to_tick (-5) 1) } = c3order
    rw [hv5]
    rfl
  have s1 : emptyBook.process_order c3order 0 =
      ({ bid_orders := [], ask_orders := [c3order], tick_size := 1 },
       [create_new_order_event c3order c3order.timestamp]) := by
    rw [process_sell_limit_empty_bids emptyBook c3order 0 1 rfl rfl (by decide) rfl rfl
      (by decide) (by rw [hr]; decide)]
    rw [hr]
    rw [show emptyBook.ask_orders = [] from rfl]
    rw [heappush_nil]
    rfl
  rw [s1]
  exact ⟨by decide, by decide⟩

/-- C3 (amended): a LIMIT order whose `get_price()` is falsy is rejected
outright: the book is unchanged and no event is published.  Otherwise the
stored price is first rounded to the tick and every NewOrder event the
call publishes carries that rounded stored price; the price's sign is
never checked, so negative prices are accepted.  When no matching is
possible (empty opposite side) and the size is positive, the order rests
and a NewOrder event is published exactly when the rounded `get_price()`
is still truthy: a residual whose rounded price is falsy is silently
dropped by `_add_order` — again no event and the book unchanged. -/
theorem limit_rejection_amended (b : LimitOrderBook) (o : Order) (now : ℕ)
    (ht : o.type = OrderType.limit) :
    (o.get_price = 0 → b.process_order o now = (b, [])) ∧
    (∀ e ∈ (b.process_order o now).2,
      ∀ oid side sz pr pid ts2, e = Event.newOrder oid side sz pr OrderType.limit pid ts2 →
        pr = o.price.map (fun p => round_to_tick p b.tick_size)) ∧
    (o.side = OrderSide.sell → b.bid_orders = [] → ¬ o.get_price = 0 → 0 < o.size →
      (Order.get_price { o with side := OrderSide.sell, price := o.price.map (fun p => round_to_tick p b.tick_size) } = 0 →
        b.process_order o now = (b, [])) ∧
      (¬ Order.get_price { o with side := OrderSide.sell, price := o.price.map (fun p => round_to_tick p b.tick_size) } = 0 →
        b.process_order o now =
          ({ b with ask_orders := Heapq.heappush Order.ltb b.ask_orders { o with side := OrderSide.sell, price := o.price.map (fun p => round_to_tick p b.tick_size) } },
           [create_new_order_event { o with side := OrderSide.sell, price := o.price.map (fun p => round_to_tick p b.tick_size) } o.timestamp]))) ∧
    (o.side = OrderSide.buy → b.ask_orders = [] → ¬ o.get_price = 0 → 0 < o.size →
      (Order.get_price { o with side := OrderSide.buy, price := o.price.map (fun p => round_to_tick p b.tick_size) } = 0 →
        b.process_order o now = (b, [])) ∧
      (¬ Order.get_price { o with side := OrderSide.buy, price := o.price.map (fun p => round_to_tick p b.tick_size) } = 0 →
        b.process_order o now =
          ({ b with bid_orders := Heapq.heappush Order.ltb b.bid_orders { o with side := OrderSide.buy, price := o.price.map (fun p => round_to_tick p b.tick_size) } },
           [create_new_order_event { o with side := OrderSide.buy, price := o.price.map (fun p => round_to_tick p b.tick_size) } o.timestamp]))) := by
  refine ⟨?_, ?_, ?_, ?_⟩
  · intro hp
    unfold LimitOrderBook.process_order
    rw [ht]
    dsimp only
    unfold LimitOrderBook.match_limit_order
    rw [if_pos hp]
  · unfold LimitOrderBook.process_order
    rw [ht]
    dsimp only
    unfold LimitOrderBook.match_limit_order
    by_cases hp : o.get_price = 0
    · rw [if_pos hp]
      intro e he
      simp at he
    · rw [if_neg hp]
      have hc : ¬ o.type = OrderType.cancel := by
        rw [ht]
        intro hcon
        exact OrderType.noConfusion hcon
      rw [if_neg hc]
      cases hside : o.side with
      | buy =>
        dsimp only
        obtain ⟨⟨sz, hsz⟩, _, _, hev⟩ :=
          match_buy_limit_loop_spec
            { o with side := OrderSide.buy,
                     price := o.price.map (fun p => round_to_tick p b.tick_size) }
            b.ask_orders []
        split
        · intro e he oid side2 sz2 pr pid ts2 heq
          rcases List.mem_append.mp he with h4 | h4
          · rcases hev e h4 with h0 | ⟨pr2, s2, aid, _, htr⟩
            · simp at h0
            · rw [heq] at htr
              exact absurd htr (by simp)
          · have h5 := add_order_event_shape _ _ e h4
            rw [heq] at h5
            unfold create_new_order_event at h5
            injection h5 with g1 g2 g3 g4 g5 g6 g7
            rw [g4, hsz]
        · intro e he oid side2 sz2 pr pid ts2 heq
          rcases hev e he with h0 | ⟨pr2, s2, aid, _, htr⟩
          · simp at h0
          · rw [heq] at htr
            exact absurd htr (by simp)
      | sell =>
        dsimp only
        obtain ⟨⟨sz, hsz⟩, _, _, hev⟩ :=
          match_sell_limit_loop_spec
            { o with side := OrderSide.sell,
                     price := o.price.map (fun p => round_to_tick p b.tick_size) }
            b.bid_orders []
        split
        · intro e he oid side2 sz2 pr pid ts2 heq
          rcases List.mem_append.mp he with h4 | h4
          · rcases hev e h4 with h0 | ⟨pr2, s2, aid, _, htr⟩
            · simp at h0
            · rw [heq] at htr
              exact absurd htr (by simp)
          · have h5 := add_order_event_shape _ _ e h4
            rw [heq] at h5
            unfold create_new_order_event at h5
            injection h5 with g1 g2 g3 g4 g5 g6 g7
            rw [g4, hsz]
        · intro e he oid side2 sz2 pr pid ts2 heq
          rcases hev e he with h0 | ⟨pr2, s2, aid, _, htr⟩
          · simp at h0
          · rw [heq] at htr
            exact absurd htr (by simp)

  · intro hside hb hp hsz
    constructor
    · intro hp1
      rw [process_sell_limit_empty_bids_drop b o now b.tick_size rfl hb hp hside ht hsz hp1]
      rw [book_bid_update_self b hb]
    · intro hp1
      rw [process_sell_limit_empty_bids b o now b.tick_size rfl hb hp hside ht hsz hp1]
      rw [book_bid_update_drop b hb]
  · intro hside ha hp hsz
    constructor
    · intro hp1
      rw [process_buy_limit_empty_asks_drop b o now b.tick_size rfl ha hp hside ht hsz hp1]
      rw [book_ask_update_self b ha]
    · intro hp1
      rw [process_buy_limit_empty_asks b o now b.tick_size rfl ha hp hside ht hsz hp1]
      rw [book_ask_update_drop b ha]

theorem limit_rejection_amended_witness :
    c3order.type = OrderType.limit ∧
    ((c3order.get_price = 0 → emptyBook.process_order c3order 0 = (emptyBook, [])) ∧
      (∀ e ∈ (emptyBook.process_order c3order 0).2,
        ∀ oid side sz pr pid ts2, e = Event.newOrder oid side sz pr OrderType.limit pid ts2 →
          pr = c3order.price.map (fun p => round_to_tick p emptyBook.tick_size)) ∧
      (c3order.side = OrderSide.sell → emptyBook.bid_orders = [] →
        ¬ c3order.get_price = 0 → 0 < c3order.size →
        (Order.get_price { c3order with side := OrderSide.sell, price := c3order.price.map (fun p => round_to_tick p emptyBook.tick_size) } = 0 →
          emptyBook.process_order c3order 0 = (emptyBook, [])) ∧
        (¬ Order.get_price { c3order with side := OrderSide.sell, price := c3order.price.map (fun p => round_to_tick p emptyBook.tick_size) } = 0 →
          emptyBook.process_order c3order 0 =
            ({ emptyBook with ask_orders := Heapq.heappush Order.ltb emptyBook.ask_orders { c3order with side := OrderSide.sell, price := c3order.price.map (fun p => round_to_tick p emptyBook.tick_size) } },
             [create_new_order_event { c3order with side := OrderSide.sell, price := c3order.price.map (fun p => round_to_tick p emptyBook.tick_size) } c3order.timestamp]))) ∧
      (c3order.side = OrderSide.buy → emptyBook.ask_orders = [] →
        ¬ c3order.get_price = 0 → 0 < c3order.size →
        (Order.get_price { c3order with side := OrderSide.buy, price := c3order.price.map (fun p => round_to_tick p emptyBook.tick_size) } = 0 →
          emptyBook.process_order c3order 0 = (emptyBook, [])) ∧
        (¬ Order.get_price { c3order with side := OrderSide.buy, price := c3order.price.map (fun p => round_to_tick p emptyBook.tick_size) } = 0 →
          emptyBook.process_order c3order 0 =
            ({ emptyBook with bid_orders := Heapq.heappush Order.ltb emptyBook.bid_orders { c3order with side := OrderSide.buy, price := c3order.price.map (fun p => round_to_tick p emptyBook.tick_size) } },
             [create_new_order_event { c3order with side := OrderSide.buy, price := c3order.price.map (fun p => round_to_tick p emptyBook.tick_size) } c3order.timestamp])))) :=
  ⟨by decide, limit_rejection_amended emptyBook c3order 0 (by decide)⟩

/-! ## Market maker (C6) -/

theorem quote_sides (bo ao : Order) (pb pa : Bool)
    (hbo : bo.side = OrderSide.buy) (hao : ao.side = OrderSide.sell) :
    ((∃ o ∈ (if pb then [bo] else []) ++ (if pa then [ao] else []),
        o.side = OrderSide.buy) ↔ pb = true) ∧
    ((∃ o ∈ (if pb then [bo] else []) ++ (if pa then [ao] else []),
        o.side = OrderSide.sell) ↔ pa = true) := by
  cases pb <;> cases pa <;> simp [hbo, hao]

/-- C6 counterexample: with `quote_size = 10`, `max_inventory = 20` and
`inventory = 10`, the spec's band `|inventory + quote_size| ≤ max_inventory`
is satisfied, yet on a refresh tick over a two-sided book the maker posts
no BUY quote (the code requires the strict `inventory + quote_size <
max_inventory`): every order it submits is a SELL. -/
theorem maker_inventory_band_strict :
    |c6st.inventory + c6st.quote_size| ≤ c6st.max_inventory ∧
    ∀ cancels orders st1,
      c6st.step 0 c6book 501 502 601 602 7 = some (cancels, orders, st1) →
      orders ≠ [] ∧ ∀ o ∈ orders, o.side = OrderSide.sell := by
  constructor
  · decide
  · have hbb : c6book.best_bid.get_price = 98 := by
      norm_num [c6book, LimitOrderBook.best_bid, Order.get_price, Order.make]
    have hba : c6book.best_ask.get_price = 102 := by
      norm_num [c6book, LimitOrderBook.best_ask, Order.get_price, Order.make,
        show ¬ OrderSide.sell = OrderSide.buy from by decide]
    have hspread : c6book.get_spread = some 4 := by
      unfold LimitOrderBook.get_spread
      rw [hbb, hba]
      norm_num
    have hmid : c6book.mid_price = 100 := by
      unfold LimitOrderBook.mid_price
      rw [hbb, hba]
      norm_num
    have hstep : c6st.step 0 c6book 501 502 601 602 7 =
        some ([],
          [create_limit_order c6st.quote_size OrderSide.sell
            (round_to_tick (c6book.mid_price + 4 / 2) c6st.tick_size) 502 602 7],
          { c6st with next_quote_time := 0 + c6st.quote_update_interval,
                      quotes_bid := [],
                      quotes_ask := [create_limit_order c6st.quote_size OrderSide.sell
                        (round_to_tick (c6book.mid_price + 4 / 2) c6st.tick_size) 502 602 7] }) := by
      unfold SymmetricMaker.step
      rw [if_neg (by decide)]
      dsimp only
      rw [hspread]
      dsimp only
      rw [if_neg (show ¬ c6book.mid_price = 0 by rw [hmid]; norm_num)]
      rw [if_neg (show ¬ c6st.inventory + c6st.quote_size < c6st.max_inventory by decide)]
      rw [if_pos (show c6st.inventory - c6st.quote_size > -c6st.max_inventory by decide)]
      unfold validate_order
      dsimp only
      rw [if_neg (show ¬ (create_limit_order c6st.quote_size OrderSide.sell
        (round_to_tick (c6book.mid_price + 4 / 2) c6st.tick_size) 502 602 7).size < 0 by decide)]
      rw [if_neg (show ¬ (create_limit_order c6st.quote_size OrderSide.sell
        (round_to_tick (c6book.mid_price + 4 / 2) c6st.tick_size) 502 602 7).side =
          OrderSide.buy by decide)]
      rfl
    intro cancels orders st1 heq
    rw [hstep] at heq
    injection heq with heq2
    injection heq2 with hc heq3
    injection heq3 with ho hs
    rw [← ho]
    refine ⟨by simp, ?_⟩
    intro o hoM
    simp at hoM
    rw [hoM]
    rfl

/-- C6 (amended): between refresh ticks the maker submits nothing; on a
refresh tick over a two-sided book (finite spread, nonzero mid) it cancels
every outstanding quote, and posts its BUY quote exactly when the strict
one-sided `inventory + quote_size < max_inventory` holds and cash
validation passes, and its SELL quote exactly when the strict
`inventory - quote_size > -max_inventory` holds and validation passes —
not under the spec's symmetric band `|inventory ± quote_size| ≤
max_inventory`. -/
theorem maker_step_amended (st : SymmetricMaker) (time : ℚ) (book : LimitOrderBook)
    (bid_id ask_id bid_parent ask_parent : ℤ) (now : ℕ) (hq : ¬ st.quote_size < 0) :
    (time < st.next_quote_time →
      st.step time book bid_id ask_id bid_parent ask_parent now = some ([], [], st)) ∧
    (¬ time < st.next_quote_time → ∀ spread, book.get_spread = some spread →
      ¬ book.mid_price = 0 →
      ∃ orders st1,
        st.step time book bid_id ask_id bid_parent ask_parent now =
          some ((st.quotes_bid ++ st.quotes_ask).map (fun q => create_cancel_order q.id now),
            orders, st1) ∧
        ((∃ o ∈ orders, o.side = OrderSide.buy) ↔
          (st.inventory + st.quote_size < st.max_inventory ∧
            validate_order st.cash (create_limit_order st.quote_size OrderSide.buy
              (round_to_tick (book.mid_price - spread / 2) st.tick_size) bid_id bid_parent now)
              book = some true)) ∧
        ((∃ o ∈ orders, o.side = OrderSide.sell) ↔
          (st.inventory - st.quote_size > -st.max_inventory ∧
            validate_order st.cash (create_limit_order st.quote_size OrderSide.sell
              (round_to_tick (book.mid_price + spread / 2) st.tick_size) ask_id ask_parent now)
              book = some true))) := by
  have hval : ∀ o2 : Order, o2.size = st.quote_size →
      ∃ v : Bool, validate_order st.cash o2 book = some v := by
    intro o2 h2
    unfold validate_order
    rw [h2, if_neg hq]
    exact ⟨_, rfl⟩
  constructor
  · intro h
    unfold SymmetricMaker.step
    rw [if_pos h]
  · intro htime spread hspread hmid
    unfold SymmetricMaker.step
    rw [if_neg htime]
    dsimp only
    rw [hspread]
    dsimp only
    rw [if_neg hmid]
    obtain ⟨vb, hvb⟩ := hval (create_limit_order st.quote_size OrderSide.buy
      (round_to_tick (book.mid_price - spread / 2) st.tick_size) bid_id bid_parent now) rfl
    obtain ⟨va, hva⟩ := hval (create_limit_order st.quote_size OrderSide.sell
      (round_to_tick (book.mid_price + spread / 2) st.tick_size) ask_id ask_parent now) rfl
    by_cases hbc : st.inventory + st.quote_size < st.max_inventory
    · rw [if_pos hbc, hvb]
      by_cases hac : st.inventory - st.quote_size > -st.max_inventory
      · rw [if_pos hac, hva]
        dsimp only
        obtain ⟨hiff1, hiff2⟩ := quote_sides (create_limit_order st.quote_size OrderSide.buy
            (round_to_tick (book.mid_price - spread / 2) st.tick_size) bid_id bid_parent now)
          (create_limit_order st.quote_size OrderSide.sell
            (round_to_tick (book.mid_price + spread / 2) st.tick_size) ask_id ask_parent now)
          vb va rfl rfl
        refine ⟨_, _, rfl, ?_, ?_⟩
        · rw [hiff1]
          simp [hvb, hbc]
        · rw [hiff2]
          simp [hva, hac]
      · rw [if_neg hac]
        dsimp only
        obtain ⟨hiff1, hiff2⟩ := quote_sides (create_limit_order st.quote_size OrderSide.buy
            (round_to_tick (book.mid_price - spread / 2) st.tick_size) bid_id bid_parent now)
          (create_limit_order st.quote_size OrderSide.sell
            (round_to_tick (book.mid_price + spread / 2) st.tick_size) ask_id ask_parent now)
          vb false rfl rfl
        refine ⟨_, _, rfl, ?_, ?_⟩
        · rw [hiff1]
          simp [hvb, hbc]
        · rw [hiff2]
          simp [hac]
    · rw [if_neg hbc]
      by_cases hac : st.inventory - st.quote_size > -st.max_inventory
      · rw [if_pos hac, hva]
        dsimp only
        obtain ⟨hiff1, hiff2⟩ := quote_sides (create_limit_order st.quote_size OrderSide.buy
            (round_to_tick (book.mid_price - spread / 2) st.tick_size) bid_id bid_parent now)
          (create_limit_order st.quote_size OrderSide.sell
            (round_to_tick (book.mid_price + spread / 2) st.tick_size) ask_id ask_parent now)
          false va rfl rfl
        refine ⟨_, _, rfl, ?_, ?_⟩
        · rw [hiff1]
          simp [hbc]
        · rw [hiff2]
          simp [hva, hac]
      · rw [if_neg hac]
        dsimp only
        obtain ⟨hiff1, hiff2⟩ := quote_sides (create_limit_order st.quote_size OrderSide.buy
            (round_to_tick (book.mid_price - spread / 2) st.tick_size) bid_id bid_parent now)
          (create_limit_order st.quote_size OrderSide.sell
            (round_to_tick (book.mid_price + spread / 2) st.tick_size) ask_id ask_parent now)
          false false rfl rfl
        refine ⟨_, _, rfl, ?_, ?_⟩
        · rw [hiff1]
          simp [hbc]
        · rw [hiff2]
          simp [hac]

theorem maker_step_amended_witness :
    (¬ c6st.quote_size < 0) ∧
    ((0 < c6st.next_quote_time →
      c6st.step 0 c6book 501 502 601 602 7 = some ([], [], c6st)) ∧
    (¬ (0 : ℚ) < c6st.next_quote_time → ∀ spread, c6book.get_spread = some spread →
      ¬ c6book.mid_price = 0 →
      ∃ orders st1,
        c6st.step 0 c6book 501 502 601 602 7 =
          some ((c6st.quotes_bid ++ c6st.quotes_ask).map (fun q => create_cancel_order q.id 7),
            orders, st1) ∧
        ((∃ o ∈ orders, o.side = OrderSide.buy) ↔
          (c6st.inventory + c6st.quote_size < c6st.max_inventory ∧
            validate_order c6st.cash (create_limit_order c6st.quote_size OrderSide.buy
              (round_to_tick (c6book.mid_price - spread / 2) c6st.tick_size) 501 601 7)
              c6book = some true)) ∧
        ((∃ o ∈ orders, o.side = OrderSide.sell) ↔
          (c6st.inventory - c6st.quote_size > -c6st.max_inventory ∧
            validate_order c6st.cash (create_limit_order c6st.quote_size OrderSide.sell
              (round_to_tick (c6book.mid_price + spread / 2) c6st.tick_size) 502 602 7)
              c6book = some true)))) :=
  ⟨by decide, maker_step_amended c6st 0 c6book 501 502 601 602 7 (by decide)⟩

/-! ## TWAP scheduling (C7) -/

/-- C7: for positive volume and schedule time, TWAP `schedule_order`
returns exactly `intervals` children, each of size
`total_volume // intervals` (Python floor division) and the given side,
all sharing one parent id, with the `i`-th child's execution time in
`[t + i·(duration/intervals), t + (i+1)·(duration/intervals)]` whenever
the uniform jitter draws lie in `[0, duration/intervals]`. -/
theorem twap_schedule_spec (e : TWAPExecution) (u : ℕ → ℚ) (fresh_parent : ℤ)
    (t : ℚ) (tv : ℤ) (side : OrderSide) (pid : Option ℤ)
    (htv : 0 < tv) (ht : 0 < t)
    (hu : ∀ i : ℕ, 0 ≤ u i ∧ u i ≤ e.duration / (e.intervals : ℚ)) :
    ∃ l, e.schedule_order u fresh_parent t tv side pid = some l ∧
      l.length = e.intervals ∧
      (∀ c ∈ l, c.2.1 = Int.fdiv tv (e.intervals : ℤ) ∧ c.2.2.1 = side) ∧
      (∃ P : ℤ, ∀ c ∈ l, c.2.2.2 = P) ∧
      (∀ i : ℕ, ∀ hi : i < l.length,
        t + (i : ℚ) * (e.duration / (e.intervals : ℚ)) ≤ (l.get ⟨i, hi⟩).1 ∧
        (l.get ⟨i, hi⟩).1 ≤ t + ((i : ℚ) + 1) * (e.duration / (e.intervals : ℚ))) := by
  unfold TWAPExecution.schedule_order
  rw [if_neg (not_le.mpr htv), if_neg (not_le.mpr ht)]
  dsimp only
  refine ⟨_, rfl, by simp, ?_, ?_, ?_⟩
  · intro c hc
    rw [List.mem_map] at hc
    obtain ⟨i, hi, hci⟩ := hc
    rw [← hci]
    exact ⟨rfl, rfl⟩
  · refine ⟨match pid with
      | none => fresh_parent
      | some q => if q = 0 then fresh_parent else q, ?_⟩
    intro c hc
    rw [List.mem_map] at hc
    obtain ⟨i, hi, hci⟩ := hc
    rw [← hci]
  · intro i hi
    have hi2 : i < e.intervals := by
      simpa using hi
    have hget : ((List.range e.intervals).map (fun (i : ℕ) =>
        (t + (i : ℚ) * (e.duration / (e.intervals : ℚ)) + u i,
         Int.fdiv tv (e.intervals : ℤ), side,
         match pid with
         | none => fresh_parent
         | some q => if q = 0 then fresh_parent else q))).get ⟨i, hi⟩ =
        (t + (i : ℚ) * (e.duration / (e.intervals : ℚ)) + u i,
         Int.fdiv tv (e.intervals : ℤ), side,
         match pid with
         | none => fresh_parent
         | some q => if q = 0 then fresh_parent else q) := by
      simp
      cases pid <;> rfl
    rw [hget]
    obtain ⟨hu1, hu2⟩ := hu i
    constructor
    · show t + (i : ℚ) * (e.duration / (e.intervals : ℚ)) ≤
        t + (i : ℚ) * (e.duration / (e.intervals : ℚ)) + u i
      linarith
    · show t + (i : ℚ) * (e.duration / (e.intervals : ℚ)) + u i ≤
        t + ((i : ℚ) + 1) * (e.duration / (e.intervals : ℚ))
      have h3 : ((i : ℚ) + 1) * (e.duration / (e.intervals : ℚ)) =
          (i : ℚ) * (e.duration / (e.intervals : ℚ)) + e.duration / (e.intervals : ℚ) := by
        ring
      rw [h3]
      linarith

theorem twap_schedule_spec_witness :
    ((0 : ℤ) < 600 ∧ (0 : ℚ) < 100 ∧
      (∀ i : ℕ, 0 ≤ (fun (_ : ℕ) => (0 : ℚ)) i ∧ (fun (_ : ℕ) => (0 : ℚ)) i ≤
        ({ intervals := 6, duration := 1200 } : TWAPExecution).duration /
          (({ intervals := 6, duration := 1200 } : TWAPExecution).intervals : ℚ))) ∧
    (∃ l, TWAPExecution.schedule_order { intervals := 6, duration := 1200 }
        (fun (_ : ℕ) => (0 : ℚ)) 77 100 600 OrderSide.buy none = some l ∧
      l.length = ({ intervals := 6, duration := 1200 } : TWAPExecution).intervals ∧
      (∀ c ∈ l, c.2.1 = Int.fdiv 600
          ((({ intervals := 6, duration := 1200 } : TWAPExecution).intervals : ℤ)) ∧
        c.2.2.1 = OrderSide.buy) ∧
      (∃ P : ℤ, ∀ c ∈ l, c.2.2.2 = P) ∧
      (∀ i : ℕ, ∀ hi : i < l.length,
        100 + (i : ℚ) * (({ intervals := 6, duration := 1200 } : TWAPExecution).duration /
          (({ intervals := 6, duration := 1200 } : TWAPExecution).intervals : ℚ)) ≤
          (l.get ⟨i, hi⟩).1 ∧
        (l.get ⟨i, hi⟩).1 ≤ 100 + ((i : ℚ) + 1) *
          (({ intervals := 6, duration := 1200 } : TWAPExecution).duration /
            (({ intervals := 6, duration := 1200 } : TWAPExecution).intervals : ℚ)))) :=
  ⟨⟨by decide, by norm_num, by intro i; constructor <;> norm_num⟩,
    twap_schedule_spec { intervals := 6, duration := 1200 } (fun _ => 0) 77 100 600
      OrderSide.buy none (by decide) (by norm_num) (by intro i; constructor <;> norm_num)⟩

/-! ## NewOrder event price (C9) -/

/-- C9: for every nonzero limit price, the `NewOrderEvent` built from the
constructed order carries the internally stored price: the negation `-p`
for a BUY order (a non-positive number when `p` is positive), and `p`
itself for a SELL order. -/
theorem new_order_event_price_negated (p : ℚ) (hp : ¬ p = 0) (sz : ℤ)
    (id pid : Option ℤ) (fid fpid : ℤ) (now ts : ℕ) :
    create_new_order_event (Order.make OrderSide.buy (some p) sz OrderType.limit
        id pid fid fpid now) ts =
      Event.newOrder (Order.make OrderSide.buy (some p) sz OrderType.limit
        id pid fid fpid now).id OrderSide.buy sz (some (-p)) OrderType.limit
        (Order.make OrderSide.buy (some p) sz OrderType.limit id pid fid fpid now).parent_id
        ts ∧
    create_new_order_event (Order.make OrderSide.sell (some p) sz OrderType.limit
        id pid fid fpid now) ts =
      Event.newOrder (Order.make OrderSide.sell (some p) sz OrderType.limit
        id pid fid fpid now).id OrderSide.sell sz (some p) OrderType.limit
        (Order.make OrderSide.sell (some p) sz OrderType.limit id pid fid fpid now).parent_id
        ts := by
  constructor
  · unfold create_new_order_event Order.make
    dsimp only
    rw [if_pos ⟨hp, rfl⟩]
  · unfold create_new_order_event Order.make
    dsimp only
    rw [if_neg (show ¬ (p ≠ 0 ∧ OrderSide.sell = OrderSide.buy) by
      intro hcon
      exact OrderSide.noConfusion hcon.2)]

theorem new_order_event_price_negated_witness :
    (¬ (7 : ℚ) = 0) ∧
    (create_new_order_event (Order.make OrderSide.buy (some 7) 3 OrderType.limit
        (some 4) (some 5) 0 0 1) 2 =
      Event.newOrder (Order.make OrderSide.buy (some 7) 3 OrderType.limit
        (some 4) (some 5) 0 0 1).id OrderSide.buy 3 (some (-7)) OrderType.limit
        (Order.make OrderSide.buy (some 7) 3 OrderType.limit (some 4) (some 5) 0 0 1).parent_id
        2 ∧
    create_new_order_event (Order.make OrderSide.sell (some 7) 3 OrderType.limit
        (some 4) (some 5) 0 0 1) 2 =
      Event.newOrder (Order.make OrderSide.sell (some 7) 3 OrderType.limit
        (some 4) (some 5) 0 0 1).id OrderSide.sell 3 (some 7) OrderType.limit
        (Order.make OrderSide.sell (some 7) 3 OrderType.limit (some 4) (some 5) 0 0 1).parent_id
        2) :=
  ⟨by norm_num, new_order_event_price_negated 7 (by norm_num) 3 (some 4) (some 5) 0 0 1 2⟩

/-! ## Agent reset (C10) -/

/-- C10: `reset` with a falsy `initial_cash` argument (`None` or `0`) sets
`cash` to the constructor-time `initial_cash`; a nonzero argument is
honoured; `inventory` is always set to the `initial_inventory` argument. -/
theorem reset_falsy_cash (st : BaseStrategyState) (inv : ℤ) :
    (st.reset none inv).cash = st.initial_cash ∧
    (st.reset (some 0) inv).cash = st.initial_cash ∧
    (∀ c : ℚ, ¬ c = 0 → (st.reset (some c) inv).cash = c) ∧
    ∀ oc : Option ℚ, (st.reset oc inv).inventory = inv := by
  refine ⟨rfl, ?_, ?_, ?_⟩
  · show (if (0 : ℚ) = 0 then st.initial_cash else 0) = st.initial_cash
    rw [if_pos rfl]
  · intro c hc
    show (if c = 0 then st.initial_cash else c) = c
    rw [if_neg hc]
  · intro oc
    cases oc <;> rfl

end MMM
